import Mathlib

/-!
Verification of the blockchain-verifier audit-log core (`src/main.py`).

This file gives a shallow embedding of the core data model and operations:
the SHA-256 digest engine (`hashlib.sha256` modelled as an executable
SHA-256 over byte lists), the block header hasher
(`calculate_block_header_hash`), the genesis constructor
(`create_genesis_block`), the chain validator (`validate_blockchain`), the
append operations (`hash_file`, `verify_file_integrity`, stripped of HTTP
transport: the uploaded bytes, the filename and the two wall-clock readings
are explicit inputs), and the log read-out (`get_blockchain_log`).

Python blocks are dicts; they are embedded as a structure of `Option`
fields (`none` = key absent).  `dict[k]` access is `getKey`, which can fail
with `KeyError`; fallible Python code is embedded in `Except`.
`datetime.fromisoformat`/`isoformat`/comparison are modelled over a
seven-field naive datetime value (`DT`), restricted to the ISO-8601 grammar
family that the program generates and the validator feeds it.
-/

set_option maxRecDepth 40000

/-! ## Digest engine: executable SHA-256 over byte lists -/

def w32 : Nat := 4294967296

def add32 (a b : Nat) : Nat := (a + b) % w32

def rotr32 (n x : Nat) : Nat := ((x >>> n) ||| (x <<< (32 - n))) % w32

def shaCh (e f g : Nat) : Nat := (e &&& f) ^^^ ((e ^^^ 4294967295) &&& g)

def shaMaj (a b c : Nat) : Nat := (a &&& b) ^^^ (a &&& c) ^^^ (b &&& c)

def shaS0 (x : Nat) : Nat := rotr32 2 x ^^^ rotr32 13 x ^^^ rotr32 22 x

def shaS1 (x : Nat) : Nat := rotr32 6 x ^^^ rotr32 11 x ^^^ rotr32 25 x

def shas0 (x : Nat) : Nat := rotr32 7 x ^^^ rotr32 18 x ^^^ (x >>> 3)

def shas1 (x : Nat) : Nat := rotr32 17 x ^^^ rotr32 19 x ^^^ (x >>> 10)

def shaK : List Nat :=
  [1116352408, 1899447441, 3049323471, 3921009573, 961987163,
   1508970993, 2453635748, 2870763221, 3624381080, 310598401,
   607225278, 1426881987, 1925078388, 2162078206, 2614888103,
   3248222580, 3835390401, 4022224774, 264347078, 604807628,
   770255983, 1249150122, 1555081692, 1996064986, 2554220882,
   2821834349, 2952996808, 3210313671, 3336571891, 3584528711,
   113926993, 338241895, 666307205, 773529912, 1294757372,
   1396182291, 1695183700, 1986661051, 2177026350, 2456956037,
   2730485921, 2820302411, 3259730800, 3345764771, 3516065817,
   3600352804, 4094571909, 275423344, 430227734, 506948616,
   659060556, 883997877, 958139571, 1322822218, 1537002063,
   1747873779, 1955562222, 2024104815, 2227730452, 2361852424,
   2428436474, 2756734187, 3204031479, 3329325298]

structure SHAState where
  a : Nat
  b : Nat
  c : Nat
  d : Nat
  e : Nat
  f : Nat
  g : Nat
  h : Nat
deriving DecidableEq, Repr

def shaInit : SHAState :=
  ⟨1779033703, 3144134277, 1013904242, 2773480762,
   1359893119, 2600822924, 528734635, 1541459225⟩

def shaRound (st : SHAState) (kw : Nat × Nat) : SHAState :=
  let t1 := add32 (add32 (add32 st.h (shaS1 st.e)) (add32 (shaCh st.e st.f st.g) kw.1)) kw.2
  let t2 := add32 (shaS0 st.a) (shaMaj st.a st.b st.c)
  ⟨add32 t1 t2, st.a, st.b, st.c, add32 st.d t1, st.e, st.f, st.g⟩

def bytesToWords : List Nat → List Nat
  | a :: b :: c :: d :: rest => (((a * 256 + b) * 256 + c) * 256 + d) :: bytesToWords rest
  | _ => []

def extendW (w : Array Nat) : Nat → Array Nat
  | 0 => w
  | n + 1 =>
    let t := w.size
    extendW (w.push (add32 (add32 (shas1 (w.getD (t - 2) 0)) (w.getD (t - 7) 0))
                            (add32 (shas0 (w.getD (t - 15) 0)) (w.getD (t - 16) 0)))) n

def shaCompress (st : SHAState) (block : List Nat) : SHAState :=
  let w16 := bytesToWords block
  let w := extendW (List.toArray w16) 48
  let st' := (List.zip shaK w.toList).foldl shaRound st
  ⟨add32 st.a st'.a, add32 st.b st'.b, add32 st.c st'.c, add32 st.d st'.d,
   add32 st.e st'.e, add32 st.f st'.f, add32 st.g st'.g, add32 st.h st'.h⟩

def lenBytes8 (n : Nat) : List Nat :=
  [n >>> 56 % 256, n >>> 48 % 256, n >>> 40 % 256, n >>> 32 % 256,
   n >>> 24 % 256, n >>> 16 % 256, n >>> 8 % 256, n % 256]

def padMessage (msg : List Nat) : List Nat :=
  let l := msg.length
  let z := (64 - (l + 9) % 64) % 64
  msg ++ 128 :: List.replicate z 0 ++ lenBytes8 (l * 8)

def toBlocksFuel : Nat → List Nat → List (List Nat)
  | _, [] => []
  | 0, l => [l]
  | fuel + 1, l => l.take 64 :: toBlocksFuel fuel (l.drop 64)

def toBlocks (l : List Nat) : List (List Nat) := toBlocksFuel l.length l

def hexDigit : Nat → Char
  | 0 => '0' | 1 => '1' | 2 => '2' | 3 => '3' | 4 => '4' | 5 => '5' | 6 => '6' | 7 => '7'
  | 8 => '8' | 9 => '9' | 10 => 'a' | 11 => 'b' | 12 => 'c' | 13 => 'd' | 14 => 'e' | _ => 'f'

def hexWord8 (w : Nat) : List Char :=
  [hexDigit (w >>> 28 % 16), hexDigit (w >>> 24 % 16), hexDigit (w >>> 20 % 16),
   hexDigit (w >>> 16 % 16), hexDigit (w >>> 12 % 16), hexDigit (w >>> 8 % 16),
   hexDigit (w >>> 4 % 16), hexDigit (w % 16)]

/-- `hashlib.sha256(msg).hexdigest()`: the lowercase hex digest of SHA-256
over a byte list. -/
def sha256hex (msg : List Nat) : String :=
  let st := (toBlocks (padMessage msg)).foldl shaCompress shaInit
  ⟨hexWord8 st.a ++ hexWord8 st.b ++ hexWord8 st.c ++ hexWord8 st.d ++
   hexWord8 st.e ++ hexWord8 st.f ++ hexWord8 st.g ++ hexWord8 st.h⟩

/-! ## UTF-8 encoding of strings (Python `str.encode()`) -/

def utf8EncodeChar (c : Char) : List Nat :=
  let n := c.toNat
  if n < 128 then [n]
  else if n < 2048 then [192 ||| (n >>> 6), 128 ||| (n &&& 63)]
  else if n < 65536 then
    [224 ||| (n >>> 12), 128 ||| ((n >>> 6) &&& 63), 128 ||| (n &&& 63)]
  else
    [240 ||| (n >>> 18), 128 ||| ((n >>> 12) &&& 63),
     128 ||| ((n >>> 6) &&& 63), 128 ||| (n &&& 63)]

def utf8Encode (s : String) : List Nat := s.data.flatMap utf8EncodeChar

/-- `hashlib.sha256(s.encode()).hexdigest()` for a Python `str`. -/
def sha256hexOfString (s : String) : String := sha256hex (utf8Encode s)

/-! ## `calculate_file_hash` (src/main.py lines 15-46)

`hashlib`'s incremental object is modelled by the bytes accumulated into it:
`update` appends, `hexdigest` is SHA-256 over the accumulated bytes. -/

/-- The 64 KiB chunking loop of `calculate_file_hash`: while
`offset < len(file_bytes)`, feed `file_bytes[offset:offset+65536]` to the
hash object and advance `offset`.  Structural recursion on a fuel that
bounds the number of iterations (each iteration strictly increases
`offset`, so `file_bytes.length` iterations always suffice). -/
def readChunksFuel : Nat → List Nat → Nat → List Nat → List Nat
  | 0, _, _, acc => acc
  | fuel + 1, file_bytes, offset, acc =>
    if offset < file_bytes.length then
      readChunksFuel fuel file_bytes (offset + 65536)
        (acc ++ (file_bytes.drop offset).take 65536)
    else acc

/-- `calculate_file_hash`: empty input short-circuits to the well-known
empty-string digest; otherwise the input is fed to SHA-256 in 64 KiB
chunks. -/
def calculate_file_hash (file_bytes : List Nat) : String :=
  if file_bytes = [] then
    "e3b0c44298fc1c149afbf4c8996fb92427ae41e4649b934ca495991b7852b855"
  else
    sha256hex (readChunksFuel file_bytes.length file_bytes 0 [])

/-! ## Blocks (Python dicts with the keys the program uses) -/

/-- Python `KeyError` / `ValueError`, the two exceptions the core can
raise. -/
inductive PyError where
  | keyError
  | valueError
deriving DecidableEq, Repr

/-- `d[k]` on a Python dict: the value, or `KeyError` when absent. -/
def getKey {α : Type} : Option α → Except PyError α
  | some a => .ok a
  | none => .error .keyError

/-- A block dict.  `none` means the key is absent.  `index` is a Python
int; every other value the program ever stores under these keys is a
string.  `hash`, `stored_hash` and `current_hash` are the extra keys that
`hash_file` / `verify_file_integrity` add beside the six canonical header
fields. -/
structure Block where
  index : Option Int := none
  previous_hash : Option String := none
  timestamp : Option String := none
  operation : Option String := none
  filename : Option String := none
  result : Option String := none
  block_hash : Option String := none
  hash : Option String := none
  stored_hash : Option String := none
  current_hash : Option String := none
deriving DecidableEq, Repr

def zeros64 : String := "0000000000000000000000000000000000000000000000000000000000000000"

/-- The f-string of `calculate_block_header_hash`:
`f"{index}{previous_hash}{timestamp}{operation}{filename}{result}"`. -/
def headerString (index : Int) (previous_hash timestamp operation filename result : String) :
    String :=
  toString index ++ previous_hash ++ timestamp ++ operation ++ filename ++ result

/-- `calculate_block_header_hash` (src/main.py lines 56-70).  `index`,
`previous_hash` and `timestamp` are accessed with `[]` (KeyError when
absent, in that order); `operation`, `filename`, `result` with
`.get(k, '')`. -/
def calculate_block_header_hash (block : Block) : Except PyError String := do
  let i ← getKey block.index
  let p ← getKey block.previous_hash
  let t ← getKey block.timestamp
  pure (sha256hexOfString
    (headerString i p t (block.operation.getD "") (block.filename.getD "")
      (block.result.getD "")))

/-- The genesis block before its `block_hash` is attached. -/
def genesisBase : Block :=
  { index := some 0
    previous_hash := some zeros64
    timestamp := some "2023-01-01T00:00:00Z"
    operation := some "GENESIS"
    filename := some ""
    result := some "" }

/-- `create_genesis_block` (src/main.py lines 73-93).  All header keys are
present, so the header hash computation cannot fail; `toOption` extracts
it. -/
def create_genesis_block : Block :=
  { genesisBase with block_hash := (calculate_block_header_hash genesisBase).toOption }

/-! ## Naive datetimes

The program manipulates timestamps through one fixed incantation:
`datetime.fromisoformat(ts.replace("Z", "+00:00")).replace(tzinfo=None)`,
compares the resulting offset-naive datetimes, and generates timestamps as
`datetime.utcnow().isoformat() + "Z"`.  A naive datetime is its seven
clock fields; comparison is field-lexicographic, which is exactly CPython's
`datetime` comparison. -/

structure DT where
  year : Nat
  month : Nat
  day : Nat
  hour : Nat
  minute : Nat
  second : Nat
  microsecond : Nat
deriving DecidableEq, Repr

/-- Python `<` on naive datetimes: lexicographic on the seven fields. -/
def dtLt (a b : DT) : Bool :=
  if a.year ≠ b.year then a.year < b.year
  else if a.month ≠ b.month then a.month < b.month
  else if a.day ≠ b.day then a.day < b.day
  else if a.hour ≠ b.hour then a.hour < b.hour
  else if a.minute ≠ b.minute then a.minute < b.minute
  else if a.second ≠ b.second then a.second < b.second
  else a.microsecond < b.microsecond

def isLeapYear (y : Nat) : Bool := (y % 4 = 0 && y % 100 ≠ 0) || y % 400 = 0

def daysInMonth (y mo : Nat) : Nat :=
  if mo = 2 then (if isLeapYear y then 29 else 28)
  else if mo = 4 ∨ mo = 6 ∨ mo = 9 ∨ mo = 11 then 30
  else 31

/-- A calendar-valid datetime in the range `datetime` supports (and with a
four-digit year, the only years `isoformat` prints as exactly four
digits). -/
def WFDT (d : DT) : Prop :=
  1 ≤ d.year ∧ d.year ≤ 9999 ∧ 1 ≤ d.month ∧ d.month ≤ 12 ∧
  1 ≤ d.day ∧ d.day ≤ daysInMonth d.year d.month ∧
  d.hour ≤ 23 ∧ d.minute ≤ 59 ∧ d.second ≤ 59 ∧ d.microsecond ≤ 999999

instance (d : DT) : Decidable (WFDT d) := by unfold WFDT; infer_instance

/-- `current_time + timedelta(minutes=10)` on a calendar-valid datetime:
minute-wise addition with carry into hour, day, month, year.  Ten minutes
carry at most one day, so a single carry step is exact. -/
def dtAddMin10 (d : DT) : DT :=
  let mi := d.minute + 10
  if mi ≤ 59 then { d with minute := mi }
  else
    let mi' := mi - 60
    let h := d.hour + 1
    if h ≤ 23 then { d with minute := mi', hour := h }
    else
      let dd := d.day + 1
      if dd ≤ daysInMonth d.year d.month then { d with minute := mi', hour := 0, day := dd }
      else
        let mo := d.month + 1
        if mo ≤ 12 then { d with minute := mi', hour := 0, day := 1, month := mo }
        else { d with minute := mi', hour := 0, day := 1, month := 1, year := d.year + 1 }

/-! ### Parsing (`datetime.fromisoformat` after `.replace("Z", "+00:00")`,
with `tzinfo` stripped)

Modelled for the ISO-8601 grammar family the program generates and stores:
`YYYY-MM-DD[THH:MM:SS[.f{1..6}][±HH:MM]]`.  Range checks (month, calendar
day, hour, minute, second) mirror CPython's; any string outside the
grammar parses to `none`, which embeds the `ValueError` that
`fromisoformat` raises there.  The offset, when present, is validated and
then discarded — that is exactly `.replace(tzinfo=None)`, which keeps the
literal clock fields. -/

def readDigit (c : Char) : Option Nat :=
  if '0' ≤ c ∧ c ≤ '9' then some (c.toNat - 48) else none

def readDigits : Nat → Nat → List Char → Option (Nat × List Char)
  | 0, acc, cs => some (acc, cs)
  | k + 1, acc, cs =>
    match cs with
    | [] => none
    | c :: cs' =>
      match readDigit c with
      | some d => readDigits k (acc * 10 + d) cs'
      | none => none

def expectChar (ch : Char) : List Char → Option (List Char)
  | [] => none
  | c :: cs => if c = ch then some cs else none

def readFracDigits : List Char → (List Nat × List Char)
  | [] => ([], [])
  | c :: cs =>
    match readDigit c with
    | some d =>
      let p := readFracDigits cs
      (d :: p.1, p.2)
    | none => ([], c :: cs)

def fracToMicro (ds : List Nat) : Nat :=
  let ds6 := ds.take 6
  ds6.foldl (fun a d => a * 10 + d) 0 * 10 ^ (6 - ds6.length)

/-- Parse the (already `Z`-replaced) ISO string and ignore a trailing
UTC-offset suffix. -/
def parseOffsetTail (dt : DT) (cs : List Char) : Option DT :=
  match cs with
  | [] => some dt
  | sgn :: r1 =>
    if sgn = '+' ∨ sgn = '-' then do
      let p1 ← readDigits 2 0 r1
      let r2 ← expectChar ':' p1.2
      let p2 ← readDigits 2 0 r2
      if p1.1 ≤ 23 ∧ p2.1 ≤ 59 ∧ p2.2 = [] then some dt else none
    else none

def parseTimeTail (y mo d : Nat) (cs : List Char) : Option DT := do
  let ph ← readDigits 2 0 cs
  let r1 ← expectChar ':' ph.2
  let pmi ← readDigits 2 0 r1
  let r2 ← expectChar ':' pmi.2
  let ps ← readDigits 2 0 r2
  if ¬(ph.1 ≤ 23 ∧ pmi.1 ≤ 59 ∧ ps.1 ≤ 59) then none
  else
    match ps.2 with
    | '.' :: r3 =>
      let pf := readFracDigits r3
      if pf.1 = [] then none
      else parseOffsetTail ⟨y, mo, d, ph.1, pmi.1, ps.1, fracToMicro pf.1⟩ pf.2
    | rest => parseOffsetTail ⟨y, mo, d, ph.1, pmi.1, ps.1, 0⟩ rest

def parseIsoChars (cs : List Char) : Option DT := do
  let py ← readDigits 4 0 cs
  let r1 ← expectChar '-' py.2
  let pmo ← readDigits 2 0 r1
  let r2 ← expectChar '-' pmo.2
  let pd ← readDigits 2 0 r2
  if ¬(1 ≤ py.1 ∧ 1 ≤ pmo.1 ∧ pmo.1 ≤ 12 ∧ 1 ≤ pd.1 ∧ pd.1 ≤ daysInMonth py.1 pmo.1) then none
  else
    match pd.2 with
    | [] => some ⟨py.1, pmo.1, pd.1, 0, 0, 0, 0⟩
    | 'T' :: r3 => parseTimeTail py.1 pmo.1 pd.1 r3
    | _ => none

/-- Python `s.replace("Z", "+00:00")` — the pattern is the single
character `Z`, so it is character-wise substitution. -/
def replaceZ : List Char → List Char
  | [] => []
  | c :: cs =>
    if c = 'Z' then '+' :: '0' :: '0' :: ':' :: '0' :: '0' :: replaceZ cs
    else c :: replaceZ cs

/-- The program's timestamp-reading incantation:
`datetime.fromisoformat(ts.replace("Z", "+00:00")).replace(tzinfo=None)`.
`none` embeds the `ValueError` raised on strings the grammar rejects. -/
def pyTsParse (s : String) : Option DT := parseIsoChars (replaceZ s.data)

/-! ### Formatting (`datetime.utcnow().isoformat()`) -/

def digitChar : Nat → Char
  | 0 => '0' | 1 => '1' | 2 => '2' | 3 => '3' | 4 => '4'
  | 5 => '5' | 6 => '6' | 7 => '7' | 8 => '8' | _ => '9'

def pad2chars (n : Nat) : List Char := [digitChar (n / 10), digitChar (n % 10)]

def pad4chars (n : Nat) : List Char :=
  [digitChar (n / 1000), digitChar (n / 100 % 10), digitChar (n / 10 % 10), digitChar (n % 10)]

def pad6chars (n : Nat) : List Char :=
  [digitChar (n / 100000), digitChar (n / 10000 % 10), digitChar (n / 1000 % 10),
   digitChar (n / 100 % 10), digitChar (n / 10 % 10), digitChar (n % 10)]

def isoChars (d : DT) : List Char :=
  pad4chars d.year ++ '-' :: pad2chars d.month ++ '-' :: pad2chars d.day ++
  'T' :: pad2chars d.hour ++ ':' :: pad2chars d.minute ++ ':' :: pad2chars d.second ++
  (if d.microsecond = 0 then [] else '.' :: pad6chars d.microsecond)

/-- `datetime.isoformat()` on a naive datetime: `YYYY-MM-DDTHH:MM:SS`,
with `.ffffff` appended exactly when the microsecond field is nonzero. -/
def dtIsoformat (d : DT) : String := ⟨isoChars d⟩

/-! ## `validate_blockchain` (src/main.py lines 96-142) -/

/-- Python truthiness of `.get("block_hash", None)`: `None` and the empty
string are falsy. -/
def pyTruthyOpt : Option String → Bool
  | none => false
  | some s => !(s == "")

/-- Lines 119-122: resolve the predecessor's header hash, preferring
`block_hash` (when truthy) and otherwise falling back to
`.get("hash", .get("current_hash", None))` (presence-based, no truthiness
re-check). -/
def resolvePrevHashVal (prev : Block) : Option String :=
  if pyTruthyOpt prev.block_hash then prev.block_hash
  else
    match prev.hash with
    | some h => some h
    | none => prev.current_hash

/-- Lines 127-131: when the current block carries a `block_hash`,
recompute the header hash and compare. -/
def checkOwnHash (cur : Block) : Except PyError Bool :=
  match cur.block_hash with
  | none => .ok true
  | some stored =>
    match calculate_block_header_hash cur with
    | .error e => .error e
    | .ok recomputed => .ok (stored == recomputed)

/-- One iteration of the validation loop (lines 114-139) for blocks
`previous_block = prev`, `current_block = cur` at position `i`:
`some verdict` is an early `return`, `none` continues the loop, `.error`
is an escaping exception.  The checks run in source order: previous-hash
link, own header hash, then timestamp ordering (current parsed before
previous, as in the source). -/
def validateStep (prev cur : Block) (i : Nat) : Except PyError (Option (Bool × Option Nat)) :=
  match cur.previous_hash with
  | none => .error .keyError
  | some cph =>
    if resolvePrevHashVal prev ≠ some cph then .ok (some (false, some i))
    else
      match checkOwnHash cur with
      | .error e => .error e
      | .ok false => .ok (some (false, some i))
      | .ok true =>
        match cur.timestamp with
        | none => .error .keyError
        | some cts =>
          match pyTsParse cts with
          | none => .error .valueError
          | some ct =>
            match prev.timestamp with
            | none => .error .keyError
            | some pts =>
              match pyTsParse pts with
              | none => .error .valueError
              | some pt =>
                if dtLt ct pt then .ok (some (false, some i)) else .ok none

/-- The `for i in range(1, len(BLOCKCHAIN_LOG))` loop. -/
def validateLoop (prev : Block) (rest : List Block) (i : Nat) :
    Except PyError (Bool × Option Nat) :=
  match rest with
  | [] => .ok (true, none)
  | cur :: rest' =>
    match validateStep prev cur i with
    | .error e => .error e
    | .ok (some verdict) => .ok verdict
    | .ok none => validateLoop cur rest' (i + 1)

/-- `validate_blockchain` over an explicit chain (the global
`BLOCKCHAIN_LOG`).  The genesis check short-circuits like the Python `or`:
`log[0]["index"]` is read first (KeyError when absent), and
`log[0]["previous_hash"]` only when the index check passed. -/
def validate_blockchain (log : List Block) : Except PyError (Bool × Option Nat) :=
  match log with
  | [] => .ok (true, none)
  | b0 :: rest =>
    match b0.index with
    | none => .error .keyError
    | some i0 =>
      if i0 ≠ 0 then .ok (false, some 0)
      else
        match b0.previous_hash with
        | none => .error .keyError
        | some p0 =>
          if p0 ≠ zeros64 then .ok (false, some 0)
          else validateLoop b0 rest 1

/-! ## The append operations (src/main.py lines 322-430 and 484-620)

The HTTP plumbing (UploadFile, rate limiting, response codes) is the
transport layer; what is embedded is the core state transition on
`BLOCKCHAIN_LOG`.  The uploaded bytes arrive as `file_bytes`; the two
`datetime.utcnow()` readings are the explicit inputs `r1` (used to build
the timestamp string) and `r2` (the `current_time` of the skew check).
Each operation returns its outcome together with the log after the call:
the only statement that mutates the log is the final
`BLOCKCHAIN_LOG.append(new_block)`, so on every error path the log is
returned unchanged. -/

inductive HttpError where
  | payloadTooLarge
  | invalidTimestamp
  | missingParam
  | internalError
deriving DecidableEq, Repr

structure HashResponse where
  filename : String
  hash : String
  block_hash : String
  block_index : Nat
  timestamp : String
deriving DecidableEq, Repr

structure VerifyResponse where
  status : String
  filename : String
  current_hash : String
  stored_hash : String
  block_hash : String
  block_index : Nat
  timestamp : String
deriving DecidableEq, Repr

/-- Python `str.lower()`, for the ASCII range the compared hex digests
and form fields use (executable, unlike `String.toLower`, whose
recursion does not reduce in the kernel). -/
def pyLowerChar (c : Char) : Char :=
  if 'A' ≤ c ∧ c ≤ 'Z' then Char.ofNat (c.toNat + 32) else c

def pyLower (s : String) : String := ⟨s.data.map pyLowerChar⟩

/-- Lines 371-373 / 557-559: the tail's hash as seen by the appenders —
presence-based `.get("block_hash", .get("hash", .get("current_hash",
"0"*64)))`, with all-zeros when the log is empty. -/
def tailPrevHash (b : Block) : String :=
  match b.block_hash with
  | some s => s
  | none =>
    match b.hash with
    | some s => s
    | none => b.current_hash.getD zeros64

/-- The whole tail-resolution statement: all-zeros on an empty log, else
`tailPrevHash` of the last block. -/
def logTailHash (log : List Block) : String :=
  match log.getLast? with
  | none => zeros64
  | some prev_block => tailPrevHash prev_block

/-- `hash_file` (the `/hash` endpoint, src/main.py lines 322-430), as the
core transition.  In source order: the 64 KiB read loop raises 413 as soon
as the accumulated size exceeds `max_mb` megabytes; the file hash is
computed; the tail hash is resolved; the timestamp string is generated
from `r1` and re-parsed for the clock-skew check against
`r2 + timedelta(minutes=10)`; the block is built, its header hash
attached, and only then appended.  A `ValueError`/`KeyError` on the way
would be caught by the blanket `except Exception` and surface as a 500
with the log untouched (`internalError`). -/
def hash_file (max_mb : Nat) (log : List Block) (r1 r2 : DT) (fname : String)
    (file_bytes : List Nat) : Except HttpError HashResponse × List Block :=
  if max_mb * 1048576 < file_bytes.length then (.error .payloadTooLarge, log)
  else
    let calculated_hash := calculate_file_hash file_bytes
    let previous_hash := logTailHash log
    let timestamp := dtIsoformat r1 ++ "Z"
    match pyTsParse timestamp with
    | none => (.error .internalError, log)
    | some timestamp_time =>
      if dtLt (dtAddMin10 r2) timestamp_time then (.error .invalidTimestamp, log)
      else
        let block_index := log.length
        let new_block : Block :=
          { index := some (Int.ofNat block_index)
            previous_hash := some previous_hash
            timestamp := some timestamp
            operation := some "HASH"
            filename := some fname
            result := some calculated_hash
            hash := some calculated_hash }
        match calculate_block_header_hash new_block with
        | .error _ => (.error .internalError, log)
        | .ok bh =>
          (.ok { filename := fname, hash := calculated_hash, block_hash := bh,
                 block_index := block_index, timestamp := timestamp },
           log ++ [{ new_block with block_hash := some bh }])

/-- `verify_file_integrity` (the `/verify` endpoint, src/main.py lines
484-620), as the core transition.  `st_hash` is the `stored_hash` form
field; `if not stored_hash` rejects the empty string (400).  The hash
comparison is case-insensitive (`.lower()`). -/
def verify_file_integrity (max_mb : Nat) (log : List Block) (r1 r2 : DT) (fname : String)
    (file_bytes : List Nat) (st_hash : String) :
    Except HttpError VerifyResponse × List Block :=
  if st_hash = "" then (.error .missingParam, log)
  else if max_mb * 1048576 < file_bytes.length then (.error .payloadTooLarge, log)
  else
    let cur_hash := calculate_file_hash file_bytes
    let is_valid := pyLower cur_hash = pyLower st_hash
    let status := if is_valid then "valid" else "invalid"
    let previous_hash := logTailHash log
    let timestamp := dtIsoformat r1 ++ "Z"
    match pyTsParse timestamp with
    | none => (.error .internalError, log)
    | some timestamp_time =>
      if dtLt (dtAddMin10 r2) timestamp_time then (.error .invalidTimestamp, log)
      else
        let block_index := log.length
        let new_block : Block :=
          { index := some (Int.ofNat block_index)
            previous_hash := some previous_hash
            timestamp := some timestamp
            operation := some "VERIFICATION"
            filename := some fname
            stored_hash := some st_hash
            current_hash := some cur_hash
            result := some status }
        match calculate_block_header_hash new_block with
        | .error _ => (.error .internalError, log)
        | .ok bh =>
          (.ok { status := status, filename := fname, current_hash := cur_hash,
                 stored_hash := st_hash, block_hash := bh, block_index := block_index,
                 timestamp := timestamp },
           log ++ [{ new_block with block_hash := some bh }])

/-! ## `get_blockchain_log` (src/main.py lines 433-456) -/

structure LogResponse where
  block_count : Nat
  chain_validity_status : String
  blocks : List Block
deriving DecidableEq, Repr

/-- One step of `list.sort(key=..., reverse=True)`: stable descending
insertion by the `index` key.  A later element with an equal key lands
after the earlier one, which is CPython's stable-sort behaviour under
`reverse=True`. -/
def insertDescByIndex (b : Block) : List Block → List Block
  | [] => [b]
  | x :: xs =>
    if b.index.getD 0 ≤ x.index.getD 0 then x :: insertDescByIndex b xs
    else b :: x :: xs

def sortDescByIndex (log : List Block) : List Block :=
  log.foldl (fun acc b => insertDescByIndex b acc) []

/-- `get_blockchain_log`: deep-copies the log (pure values here), sorts by
index descending (newest first; the `key` lambda raises KeyError when any
block lacks `index`), validates, and returns the response.  A validation
exception escapes the endpoint. -/
def get_blockchain_log (log : List Block) : Except PyError LogResponse :=
  if log.all (fun b => b.index.isSome) then
    let blockchain_copy := sortDescByIndex log
    match validate_blockchain log with
    | .error e => .error e
    | .ok v =>
      .ok { block_count := blockchain_copy.length
            chain_validity_status := if v.1 then "valid" else "invalid"
            blocks := blockchain_copy }
  else .error .keyError

/-! ## Decidable equality for `Except` (used by `decide` on concrete
verdicts) -/

instance {ε α : Type} [DecidableEq ε] [DecidableEq α] : DecidableEq (Except ε α) := fun a b =>
  match a, b with
  | .ok x, .ok y =>
    if h : x = y then isTrue (by rw [h])
    else isFalse (by intro hc; cases hc; exact h rfl)
  | .error x, .error y =>
    if h : x = y then isTrue (by rw [h])
    else isFalse (by intro hc; cases hc; exact h rfl)
  | .ok _, .error _ => isFalse (by intro hc; cases hc)
  | .error _, .ok _ => isFalse (by intro hc; cases hc)

/-! ## Chain-shape vocabulary

The fixed data of the genesis block, and the state-machine view of a
well-formed chain used to prove the reachability invariants. -/

def genesisDT : DT := ⟨2023, 1, 1, 0, 0, 0, 0⟩

def genesisHash : String :=
  sha256hexOfString (headerString 0 zeros64 "2023-01-01T00:00:00Z" "GENESIS" "" "")

/-- One well-formed-chain step: consuming block `b` from state
`(next index, required previous hash, last timestamp)` succeeds when `b`
is fully formed, linked, hash-correct and not time-decreasing, and yields
the successor state. -/
def chainStep (st : Nat × String × DT) (b : Block) : Option (Nat × String × DT) :=
  match b.block_hash, b.timestamp with
  | some bh, some ts =>
    match pyTsParse ts, calculate_block_header_hash b with
    | some d, .ok ch =>
      if b.index = some (Int.ofNat st.1) ∧ b.previous_hash = some st.2.1 ∧
          dtLt d st.2.2 = false ∧ ch = bh ∧ bh ≠ "" then
        some (st.1 + 1, bh, d)
      else none
    | _, _ => none
  | _, _ => none

def chainStateFrom (st : Nat × String × DT) : List Block → Option (Nat × String × DT)
  | [] => some st
  | b :: rest =>
    match chainStep st b with
    | some st' => chainStateFrom st' rest
    | none => none

/-- Chain states reachable from process initialization (exactly one
genesis block) by successful `hash_file` / `verify_file_integrity`
appends.  `t` is the naive datetime of the last block's timestamp.  The
clock source is explicit: each step reads `r1` (used for the stored
timestamp) and `r2` (the skew-check reading); a UTC clock is assumed to
produce calendar-valid readings that do not run backwards relative to the
timestamps already recorded, which is `WFDT r1` and `dtLt r1 t = false`. -/
inductive ReachableC : List Block → DT → Prop where
  | init : ReachableC [create_genesis_block] genesisDT
  | stepHash (max_mb : Nat) (log : List Block) (t r1 r2 : DT) (fname : String)
      (file_bytes : List Nat) (h : ReachableC log t) (hwf : WFDT r1)
      (hmono : dtLt r1 t = false)
      (hok : (hash_file max_mb log r1 r2 fname file_bytes).1.isOk = true) :
      ReachableC (hash_file max_mb log r1 r2 fname file_bytes).2 r1
  | stepVerify (max_mb : Nat) (log : List Block) (t r1 r2 : DT) (fname : String)
      (file_bytes : List Nat) (st_hash : String) (h : ReachableC log t) (hwf : WFDT r1)
      (hmono : dtLt r1 t = false)
      (hok : (verify_file_integrity max_mb log r1 r2 fname file_bytes st_hash).1.isOk = true) :
      ReachableC (verify_file_integrity max_mb log r1 r2 fname file_bytes st_hash).2 r1

/-! ## The spec's chain invariants, stated positionally -/

/-- Invariant (a): indices are dense starting at 0. -/
def denseIndices (log : List Block) : Prop :=
  ∀ k, (hk : k < log.length) → (log.get ⟨k, hk⟩).index = some (Int.ofNat k)

/-- Invariant (b): each block's `previous_hash` equals the preceding
block's `block_hash`. -/
def hashLinks (log : List Block) : Prop :=
  ∀ k, (hk : k + 1 < log.length) →
    (log.get ⟨k + 1, hk⟩).previous_hash = (log.get ⟨k, by omega⟩).block_hash

/-- Invariant (c): every stored `block_hash` is present and equals the
header-hash recomputation over the block's own fields. -/
def hashesOK (log : List Block) : Prop :=
  ∀ k, (hk : k < log.length) → ∃ h, (log.get ⟨k, hk⟩).block_hash = some h ∧
    calculate_block_header_hash (log.get ⟨k, hk⟩) = .ok h

/-- Invariant (d): timestamps all parse and are non-decreasing along the
chain. -/
def tsMono (log : List Block) : Prop :=
  ∀ k, (hk : k + 1 < log.length) → ∃ d d',
    ((log.get ⟨k, by omega⟩).timestamp.bind pyTsParse) = some d ∧
    ((log.get ⟨k + 1, hk⟩).timestamp.bind pyTsParse) = some d' ∧
    dtLt d' d = false

/-- The fields the validator reads unconditionally from every block: with
these present and the timestamp parsable, no iteration can raise. -/
def requiredOK (b : Block) : Prop :=
  b.index.isSome ∧ b.previous_hash.isSome ∧
  ∃ ts d, b.timestamp = some ts ∧ pyTsParse ts = some d

/-! ## Concrete chains for witnesses and counterexamples -/

def demoDT1 : DT := ⟨2024, 5, 6, 7, 8, 9, 123456⟩

def demoDT2 : DT := ⟨2024, 5, 6, 8, 0, 0, 0⟩

/-- Genesis plus one `HASH` append (bytes `b"hi"`). -/
def demoLog1 : List Block :=
  (hash_file 10 [create_genesis_block] demoDT1 demoDT1 "a.txt" [104, 105]).2

/-- `demoLog1` plus one `VERIFICATION` append: a valid three-block chain. -/
def demoLog2 : List Block :=
  (verify_file_integrity 10 demoLog1 demoDT2 demoDT2 "b.txt" [104] "ABC").2

def demoB1 : Block := demoLog2.getD 1 {}

def demoB2 : Block := demoLog2.getD 2 {}

/-- A block whose stored `block_hash` differs from the recomputation:
the genesis block with its hash overwritten. -/
def tamperedGenesis : Block := { create_genesis_block with block_hash := some "deadbeef" }

/-- A chain whose second block carries an unparsable timestamp (its link
to the genesis block is intact and it carries no `block_hash`, so the
validator reaches the timestamp parse). -/
def badTsChain : List Block :=
  [create_genesis_block,
   { index := some 1, previous_hash := create_genesis_block.block_hash,
     timestamp := some "garbage" }]

/-- A block for the timestamp-decrease scenario: linked to `demoB1`,
hash-correct over its own fields, but dated before `demoB1`. -/
def c5curBase : Block :=
  { index := some 2, previous_hash := demoB1.block_hash,
    timestamp := some "2023-06-01T00:00:00Z", operation := some "HASH",
    filename := some "x", result := some "r" }

def c5cur : Block := { c5curBase with block_hash := (calculate_block_header_hash c5curBase).toOption }

/-- A block at index 1, correctly linked to the genesis block, whose
stored `block_hash` is not the recomputation over its own fields. -/
def c3Bad : Block :=
  { index := some 1, previous_hash := create_genesis_block.block_hash,
    timestamp := some "2023-01-02T00:00:00Z", block_hash := some "beef" }

def c3Chain : List Block := [create_genesis_block, c3Bad]

/-- Two blocks for the field-boundary collision: `"1" ++ "2a"` and
`"12" ++ "a"` concatenate to the same header string. -/
def collideA : Block :=
  { index := some 1, previous_hash := some "2a", timestamp := some "b",
    operation := some "", filename := some "", result := some "" }

def collideB : Block :=
  { index := some 12, previous_hash := some "a", timestamp := some "b",
    operation := some "", filename := some "", result := some "" }

/-! # Theorems -/

/-! ## The digest engine and `calculate_file_hash` -/

theorem readChunksFuel_eq (fuel : Nat) :
    ∀ (l : List Nat) (off : Nat) (acc : List Nat), l.length ≤ off + fuel →
      readChunksFuel fuel l off acc = acc ++ l.drop off := by
  induction fuel with
  | zero =>
    intro l off acc h
    rw [readChunksFuel, List.drop_eq_nil_of_le (by omega), List.append_nil]
  | succ n ih =>
    intro l off acc h
    rw [readChunksFuel]
    by_cases hlt : off < l.length
    · rw [if_pos hlt, ih l (off + 65536) _ (by omega), List.append_assoc]
      congr 1
      calc (l.drop off).take 65536 ++ l.drop (off + 65536)
          = (l.drop off).take 65536 ++ (l.drop off).drop 65536 := by
            rw [List.drop_drop]
        _ = l.drop off := List.take_append_drop _ _
    · rw [if_neg hlt, List.drop_eq_nil_of_le (by omega), List.append_nil]

theorem calculate_file_hash_eq (file_bytes : List Nat) :
    calculate_file_hash file_bytes = sha256hex file_bytes := by
  unfold calculate_file_hash
  by_cases h : file_bytes = []
  · subst h
    decide
  · rw [if_neg h, readChunksFuel_eq _ _ _ _ (by omega), List.nil_append, List.drop_zero]

theorem sha256hex_ne_empty (msg : List Nat) : sha256hex msg ≠ "" := by
  intro h
  have h2 := congrArg String.data h
  simp [sha256hex, hexWord8] at h2

/-- C7: `calculate_file_hash` — the empty-input short-circuit plus the
64 KiB chunking loop — computes exactly single-pass SHA-256 over the whole
input; the empty input gives the empty-string digest and `b"Hello World"`
gives the standard test vector. -/
theorem C7_file_hash_is_single_pass_sha256 :
    (∀ file_bytes : List Nat, calculate_file_hash file_bytes = sha256hex file_bytes) ∧
    calculate_file_hash [] =
      "e3b0c44298fc1c149afbf4c8996fb92427ae41e4649b934ca495991b7852b855" ∧
    calculate_file_hash [72, 101, 108, 108, 111, 32, 87, 111, 114, 108, 100] =
      "a591a6d40bf420404a011733cfb7b190d62c65bf0bcda32b57b277d9ad9f146e" :=
  ⟨calculate_file_hash_eq, by decide, by decide⟩

/-! ## The block hasher -/

/-- C10: the header hash reads only the six canonical fields — blocks
agreeing on `index`, `previous_hash`, `timestamp`, `operation`,
`filename`, `result` hash identically whatever their other keys
(`block_hash`, legacy `hash`, `stored_hash`, `current_hash`) hold. -/
theorem C10_header_hash_depends_only_on_six_fields (b1 b2 : Block)
    (hi : b1.index = b2.index) (hp : b1.previous_hash = b2.previous_hash)
    (ht : b1.timestamp = b2.timestamp) (ho : b1.operation = b2.operation)
    (hf : b1.filename = b2.filename) (hr : b1.result = b2.result) :
    calculate_block_header_hash b1 = calculate_block_header_hash b2 := by
  simp only [calculate_block_header_hash, hi, hp, ht, ho, hf, hr]

/-- Witness for C10 at a concrete input: `demoB1` hashes the same after
its extra keys are rewritten (legacy `hash` dropped, `stored_hash`
added). -/
theorem C10_header_hash_witness :
    calculate_block_header_hash { demoB1 with hash := none, stored_hash := some "zzz" } =
      calculate_block_header_hash demoB1 :=
  C10_header_hash_depends_only_on_six_fields _ _ rfl rfl rfl rfl rfl rfl

set_option maxHeartbeats 1600000 in
/-- C6: the block hasher is SHA-256 of the UTF-8 bytes of the six fields
concatenated in order with no separators; equal concatenations therefore
collide, and two genuinely distinct field tuples with the same
concatenation exist (`"1"+"2a"` vs `"12"+"a"`). -/
theorem C6_header_hash_concat_and_collisions :
    (∀ (b : Block) (i : Int) (p t : String),
        b.index = some i → b.previous_hash = some p → b.timestamp = some t →
        calculate_block_header_hash b =
          .ok (sha256hex (utf8Encode (toString i ++ p ++ t ++ b.operation.getD "" ++
            b.filename.getD "" ++ b.result.getD "")))) ∧
    (∀ b1 b2 : Block, ∀ i1 p1 t1 i2 p2 t2,
        b1.index = some i1 → b1.previous_hash = some p1 → b1.timestamp = some t1 →
        b2.index = some i2 → b2.previous_hash = some p2 → b2.timestamp = some t2 →
        headerString i1 p1 t1 (b1.operation.getD "") (b1.filename.getD "") (b1.result.getD "") =
          headerString i2 p2 t2 (b2.operation.getD "") (b2.filename.getD "") (b2.result.getD "") →
        calculate_block_header_hash b1 = calculate_block_header_hash b2) ∧
    collideA ≠ collideB ∧
    calculate_block_header_hash collideA = calculate_block_header_hash collideB := by
  refine ⟨?_, ?_, by decide, ?_⟩
  · intro b i p t hi hp ht
    simp [calculate_block_header_hash, hi, hp, ht, getKey, headerString, sha256hexOfString,
      bind, Except.bind, pure, Except.pure]
  · intro b1 b2 i1 p1 t1 i2 p2 t2 hi1 hp1 ht1 hi2 hp2 ht2 hcat
    simp [calculate_block_header_hash, hi1, hp1, ht1, hi2, hp2, ht2, getKey,
      sha256hexOfString, bind, Except.bind, pure, Except.pure, hcat]
  · show calculate_block_header_hash collideA = calculate_block_header_hash collideB
    have hs : toString (1 : Int) ++ "2a" ++ "b" = toString (12 : Int) ++ "a" ++ "b" := by decide
    simp [calculate_block_header_hash, collideA, collideB, getKey, headerString,
      sha256hexOfString, bind, Except.bind, hs]

/-- Witness for C6 at concrete inputs: the congruence conjunct applied to
the colliding pair. -/
theorem C6_header_hash_witness :
    calculate_block_header_hash collideA = calculate_block_header_hash collideB :=
  C6_header_hash_concat_and_collisions.2.1 collideA collideB 1 "2a" "b" 12 "a" "b"
    rfl rfl rfl rfl rfl rfl rfl

/-! ## Timestamp format/parse round trip -/

theorem digitChar_mem (n : Nat) :
    digitChar n ∈ (['0', '1', '2', '3', '4', '5', '6', '7', '8', '9'] : List Char) := by
  match n with
  | 0 | 1 | 2 | 3 | 4 | 5 | 6 | 7 | 8 => decide
  | n + 9 =>
    show '9' ∈ _
    decide

theorem digitChar_ne_Z (n : Nat) : digitChar n ≠ 'Z' := by
  have h := digitChar_mem n
  intro hc
  rw [hc] at h
  revert h
  decide

theorem readDigit_digitChar (n : Nat) (h : n < 10) : readDigit (digitChar n) = some n := by
  interval_cases n <;> decide

theorem Z_not_mem_pad2 (n : Nat) : 'Z' ∉ pad2chars n := by
  intro h
  simp only [pad2chars, List.mem_cons, List.not_mem_nil, or_false] at h
  rcases h with h | h
  · exact digitChar_ne_Z _ h.symm
  · exact digitChar_ne_Z _ h.symm

theorem Z_not_mem_pad4 (n : Nat) : 'Z' ∉ pad4chars n := by
  intro h
  simp only [pad4chars, List.mem_cons, List.not_mem_nil, or_false] at h
  rcases h with h | h | h | h <;> exact digitChar_ne_Z _ h.symm

theorem Z_not_mem_pad6 (n : Nat) : 'Z' ∉ pad6chars n := by
  intro h
  simp only [pad6chars, List.mem_cons, List.not_mem_nil, or_false] at h
  rcases h with h | h | h | h | h | h <;> exact digitChar_ne_Z _ h.symm

theorem Z_not_mem_isoChars (d : DT) : 'Z' ∉ isoChars d := by
  intro h
  by_cases hm : d.microsecond = 0 <;>
    simp only [isoChars, hm, eq_self_iff_true, if_true, if_false, List.append_nil,
      List.mem_append, List.mem_cons, List.not_mem_nil, or_false] at h <;>
    casesm* _ ∨ _ <;>
    first
      | exact Z_not_mem_pad4 _ ‹ 'Z' ∈ pad4chars _›
      | exact Z_not_mem_pad2 _ ‹ 'Z' ∈ pad2chars _›
      | exact Z_not_mem_pad6 _ ‹ 'Z' ∈ pad6chars _›
      | exact absurd ‹ 'Z' = '-'› (by decide)
      | exact absurd ‹ 'Z' = 'T'› (by decide)
      | exact absurd ‹ 'Z' = ':'› (by decide)
      | exact absurd ‹ 'Z' = '.'› (by decide)

theorem replaceZ_append (l l2 : List Char) (h : ∀ c ∈ l, c ≠ 'Z') :
    replaceZ (l ++ l2) = l ++ replaceZ l2 := by
  induction l with
  | nil => simp
  | cons c cs ih =>
    simp only [List.cons_append, replaceZ, List.append_eq]
    rw [if_neg (h c (by simp)), ih (fun x hx => h x (by simp [hx]))]

theorem replaceZ_iso (d : DT) :
    replaceZ (isoChars d ++ ['Z']) = isoChars d ++ ['+', '0', '0', ':', '0', '0'] := by
  rw [replaceZ_append _ _ (fun c hc hz => (Z_not_mem_isoChars d) (hz ▸ hc))]
  rfl

theorem expectChar_self (ch : Char) (cs : List Char) : expectChar ch (ch :: cs) = some cs := by
  simp [expectChar]

theorem readDigits_pad2 (n : Nat) (hn : n ≤ 99) (cs : List Char) :
    readDigits 2 0 (pad2chars n ++ cs) = some (n, cs) := by
  have d1 : n / 10 < 10 := by omega
  have d2 : n % 10 < 10 := by omega
  simp [pad2chars, readDigits, readDigit_digitChar _ d1, readDigit_digitChar _ d2]
  omega

theorem readDigits_pad4 (n : Nat) (hn : n ≤ 9999) (cs : List Char) :
    readDigits 4 0 (pad4chars n ++ cs) = some (n, cs) := by
  have d1 : n / 1000 < 10 := by omega
  have d2 : n / 100 % 10 < 10 := by omega
  have d3 : n / 10 % 10 < 10 := by omega
  have d4 : n % 10 < 10 := by omega
  simp [pad4chars, readDigits, readDigit_digitChar _ d1, readDigit_digitChar _ d2,
    readDigit_digitChar _ d3, readDigit_digitChar _ d4]
  omega

theorem readDigit_plus : readDigit '+' = none := by decide

theorem daysInMonth_le (y mo : Nat) : daysInMonth y mo ≤ 31 := by
  unfold daysInMonth
  split_ifs <;> omega

theorem readFrac_pad6 (n : Nat) (hn : n ≤ 999999) (cs : List Char) :
    readFracDigits (pad6chars n ++ '+' :: cs) =
      ([n / 100000, n / 10000 % 10, n / 1000 % 10, n / 100 % 10, n / 10 % 10, n % 10],
        '+' :: cs) := by
  have d1 : n / 100000 < 10 := by omega
  have d2 : n / 10000 % 10 < 10 := by omega
  have d3 : n / 1000 % 10 < 10 := by omega
  have d4 : n / 100 % 10 < 10 := by omega
  have d5 : n / 10 % 10 < 10 := by omega
  have d6 : n % 10 < 10 := by omega
  simp [pad6chars, readFracDigits, readDigit_digitChar _ d1, readDigit_digitChar _ d2,
    readDigit_digitChar _ d3, readDigit_digitChar _ d4, readDigit_digitChar _ d5,
    readDigit_digitChar _ d6, readDigit_plus]

theorem fracToMicro_pad6 (n : Nat) (hn : n ≤ 999999) :
    fracToMicro [n / 100000, n / 10000 % 10, n / 1000 % 10, n / 100 % 10, n / 10 % 10,
      n % 10] = n := by
  simp [fracToMicro]
  omega

theorem pyTsParse_isoformat (d : DT) (h : WFDT d) :
    pyTsParse (dtIsoformat d ++ "Z") = some d := by
  obtain ⟨h1, h2, h3, h4, h5, h6, h7, h8, h9, h10⟩ := h
  have hdata : (dtIsoformat d ++ "Z").data = isoChars d ++ ['Z'] := by
    rw [String.data_append]; rfl
  rw [pyTsParse, hdata, replaceZ_iso]
  by_cases hm : d.microsecond = 0
  · have hiso : isoChars d ++ ['+', '0', '0', ':', '0', '0'] =
        pad4chars d.year ++ '-' :: (pad2chars d.month ++ '-' :: (pad2chars d.day ++
          'T' :: (pad2chars d.hour ++ ':' :: (pad2chars d.minute ++ ':' :: (pad2chars d.second ++
            ['+', '0', '0', ':', '0', '0']))))) := by
      simp [isoChars, hm]
    rw [hiso, parseIsoChars]
    simp only [readDigits_pad4 d.year (by omega), Option.bind_eq_bind, Option.some_bind,
      expectChar_self, readDigits_pad2 d.month (by omega),
      readDigits_pad2 d.day (by have := daysInMonth_le d.year d.month; omega)]
    rw [if_neg (not_not_intro ⟨h1, h3, h4, h5, h6⟩)]
    rw [parseTimeTail]
    simp only [readDigits_pad2 d.hour (by omega), Option.bind_eq_bind, Option.some_bind,
      expectChar_self, readDigits_pad2 d.minute (by omega), readDigits_pad2 d.second (by omega)]
    rw [if_neg (not_not_intro ⟨h7, h8, h9⟩)]
    have hd : (⟨d.year, d.month, d.day, d.hour, d.minute, d.second, 0⟩ : DT) = d := by
      cases d; simp_all
    rw [hd]
    rfl
  · have hiso : isoChars d ++ ['+', '0', '0', ':', '0', '0'] =
        pad4chars d.year ++ '-' :: (pad2chars d.month ++ '-' :: (pad2chars d.day ++
          'T' :: (pad2chars d.hour ++ ':' :: (pad2chars d.minute ++ ':' :: (pad2chars d.second ++
            '.' :: (pad6chars d.microsecond ++ ['+', '0', '0', ':', '0', '0'])))))) := by
      simp [isoChars, hm]
    rw [hiso, parseIsoChars]
    simp only [readDigits_pad4 d.year (by omega), Option.bind_eq_bind, Option.some_bind,
      expectChar_self, readDigits_pad2 d.month (by omega),
      readDigits_pad2 d.day (by have := daysInMonth_le d.year d.month; omega)]
    rw [if_neg (not_not_intro ⟨h1, h3, h4, h5, h6⟩)]
    rw [parseTimeTail]
    simp only [readDigits_pad2 d.hour (by omega), Option.bind_eq_bind, Option.some_bind,
      expectChar_self, readDigits_pad2 d.minute (by omega), readDigits_pad2 d.second (by omega)]
    rw [if_neg (not_not_intro ⟨h7, h8, h9⟩)]
    simp only [readFrac_pad6 d.microsecond (by omega)]
    rw [if_neg (by simp)]
    rw [fracToMicro_pad6 d.microsecond (by omega)]
    rfl

/-! ## Chain-state machinery -/

theorem header_hash_set_block_hash (b : Block) (s : Option String) :
    calculate_block_header_hash { b with block_hash := s } = calculate_block_header_hash b := rfl

theorem calculate_block_header_hash_ne_empty (b : Block) (s : String)
    (h : calculate_block_header_hash b = .ok s) : s ≠ "" := by
  cases hi : b.index with
  | none => simp [calculate_block_header_hash, hi, getKey, bind, Except.bind] at h
  | some i =>
    cases hp : b.previous_hash with
    | none => simp [calculate_block_header_hash, hi, hp, getKey, bind, Except.bind] at h
    | some p =>
      cases ht : b.timestamp with
      | none => simp [calculate_block_header_hash, hi, hp, ht, getKey, bind, Except.bind] at h
      | some t =>
        simp [calculate_block_header_hash, hi, hp, ht, getKey, bind, Except.bind,
          pure, Except.pure] at h
        rw [← h]
        exact sha256hex_ne_empty _

theorem calculate_block_header_hash_total (b : Block) (h1 : b.index.isSome)
    (h2 : b.previous_hash.isSome) (h3 : b.timestamp.isSome) :
    ∃ s, calculate_block_header_hash b = .ok s := by
  obtain ⟨i, hi⟩ := Option.isSome_iff_exists.mp h1
  obtain ⟨p, hp⟩ := Option.isSome_iff_exists.mp h2
  obtain ⟨t, ht⟩ := Option.isSome_iff_exists.mp h3
  refine ⟨sha256hexOfString (headerString i p t (b.operation.getD "") (b.filename.getD "")
    (b.result.getD "")), ?_⟩
  simp [calculate_block_header_hash, hi, hp, ht, getKey, bind, Except.bind, pure, Except.pure]

theorem chainStep_some (st : Nat × String × DT) (b : Block) (st' : Nat × String × DT)
    (h : chainStep st b = some st') :
    ∃ bh ts d, b.block_hash = some bh ∧ b.timestamp = some ts ∧ pyTsParse ts = some d ∧
      calculate_block_header_hash b = .ok bh ∧
      b.index = some (Int.ofNat st.1) ∧ b.previous_hash = some st.2.1 ∧
      dtLt d st.2.2 = false ∧ bh ≠ "" ∧ st' = (st.1 + 1, bh, d) := by
  unfold chainStep at h
  cases hbh : b.block_hash with
  | none => simp only [hbh] at h; exact Option.noConfusion h
  | some bh =>
    cases hts : b.timestamp with
    | none => simp only [hbh, hts] at h; exact Option.noConfusion h
    | some ts =>
      simp only [hbh, hts] at h
      cases hpp : pyTsParse ts with
      | none => simp only [hpp] at h; exact Option.noConfusion h
      | some d =>
        cases hch : calculate_block_header_hash b with
        | error e => simp only [hpp, hch] at h; exact Option.noConfusion h
        | ok ch =>
          simp only [hpp, hch] at h
          by_cases hcond : b.index = some (Int.ofNat st.1) ∧ b.previous_hash = some st.2.1 ∧
              dtLt d st.2.2 = false ∧ ch = bh ∧ bh ≠ ""
          · rw [if_pos hcond] at h
            obtain ⟨c1, c2, c3, c4, c5⟩ := hcond
            subst c4
            exact ⟨ch, ts, d, rfl, rfl, hpp, rfl, c1, c2, c3, c5, (Option.some_inj.mp h).symm⟩
          · rw [if_neg hcond] at h; cases h

theorem chainStep_intro (st : Nat × String × DT) (b : Block) (bh ts : String) (d : DT)
    (h1 : b.block_hash = some bh) (h2 : b.timestamp = some ts) (h3 : pyTsParse ts = some d)
    (h4 : calculate_block_header_hash b = .ok bh)
    (h5 : b.index = some (Int.ofNat st.1)) (h6 : b.previous_hash = some st.2.1)
    (h7 : dtLt d st.2.2 = false) (h8 : bh ≠ "") :
    chainStep st b = some (st.1 + 1, bh, d) := by
  unfold chainStep
  simp only [h1, h2, h3, h4]
  simp [h5, h6, h7, h8]

theorem chainStateFrom_append (l1 l2 : List Block) (st : Nat × String × DT) :
    chainStateFrom st (l1 ++ l2) =
      (chainStateFrom st l1).bind (fun st1 => chainStateFrom st1 l2) := by
  induction l1 generalizing st with
  | nil => rfl
  | cons b rest ih =>
    rw [List.cons_append, chainStateFrom, chainStateFrom]
    cases chainStep st b with
    | none => rfl
    | some st1 => exact ih st1

theorem chainStateFrom_last (l : List Block) :
    ∀ st st', chainStateFrom st l = some st' →
      (l = [] ∧ st' = st) ∨ (∃ lb, l.getLast? = some lb ∧ lb.block_hash = some st'.2.1) := by
  induction l with
  | nil =>
    intro st st' h
    exact Or.inl ⟨rfl, (Option.some_inj.mp h).symm⟩
  | cons b rest ih =>
    intro st st' h
    rw [chainStateFrom] at h
    cases hstep : chainStep st b with
    | none => simp only [hstep] at h; exact Option.noConfusion h
    | some st1 =>
      simp only [hstep] at h
      obtain ⟨bh, ts, d, hbh, -, -, -, -, -, -, -, hst1⟩ := chainStep_some _ _ _ hstep
      cases rest with
      | nil =>
        rw [chainStateFrom] at h
        refine Or.inr ⟨b, rfl, ?_⟩
        rw [hbh, (Option.some_inj.mp h).symm, hst1]
      | cons r rs =>
        rcases ih st1 st' h with ⟨hnil, -⟩ | ⟨lb, hlast, hlb⟩
        · cases hnil
        · exact Or.inr ⟨lb, by rw [List.getLast?_cons_cons]; exact hlast, hlb⟩

theorem genesisHash_ne_empty : genesisHash ≠ "" := sha256hex_ne_empty _

theorem checkOwnHash_ok_true (b : Block) (bh : String) (hb : b.block_hash = some bh)
    (hc : calculate_block_header_hash b = .ok bh) : checkOwnHash b = .ok true := by
  unfold checkOwnHash
  simp only [hb, hc]
  simp

theorem resolvePrevHashVal_some (prev : Block) (ph : String) (hb : prev.block_hash = some ph)
    (hne : ph ≠ "") : resolvePrevHashVal prev = some ph := by
  unfold resolvePrevHashVal
  rw [hb]
  simp [pyTruthyOpt, hne]

theorem validateStep_ok_none (prev cur : Block) (i : Nat) (ph : String)
    (hpb : prev.block_hash = some ph) (hph : ph ≠ "")
    (hlink : cur.previous_hash = some ph)
    (hhash : checkOwnHash cur = .ok true)
    (cts pts : String) (ct pt : DT)
    (hcts : cur.timestamp = some cts) (hct : pyTsParse cts = some ct)
    (hpts : prev.timestamp = some pts) (hpt : pyTsParse pts = some pt)
    (hts : dtLt ct pt = false) :
    validateStep prev cur i = .ok none := by
  unfold validateStep
  simp only [hlink, resolvePrevHashVal_some prev ph hpb hph, hhash, hcts, hct, hpts, hpt, hts]
  simp

theorem validateLoop_of_chainState (rest : List Block) :
    ∀ (prev : Block) (i j : Nat) (ph : String) (t0 : DT) (pts : String),
      prev.block_hash = some ph → ph ≠ "" →
      prev.timestamp = some pts → pyTsParse pts = some t0 →
      ∀ st', chainStateFrom (j, ph, t0) rest = some st' →
      validateLoop prev rest i = .ok (true, none) := by
  induction rest with
  | nil => intro prev i j ph t0 pts _ _ _ _ st' _; rfl
  | cons cur rest' ih =>
    intro prev i j ph t0 pts hpb hph hpts hpt st' hcs
    rw [chainStateFrom] at hcs
    cases hstep : chainStep (j, ph, t0) cur with
    | none => simp only [hstep] at hcs; exact Option.noConfusion hcs
    | some st1 =>
      simp only [hstep] at hcs
      obtain ⟨bh, ts, d, hbh, hts, hppar, hch, hidx, hprev, hdt, hbne, hst1⟩ :=
        chainStep_some _ _ _ hstep
      rw [validateLoop]
      simp only [validateStep_ok_none prev cur i ph hpb hph hprev
        (checkOwnHash_ok_true cur bh hbh hch) ts pts d t0 hts hppar hpts hpt hdt]
      subst hst1
      exact ih cur (i + 1) (j + 1) bh d ts hbh hbne hts hppar st' hcs

theorem validate_ok_of_chainState (rest : List Block) (st' : Nat × String × DT)
    (h : chainStateFrom (1, genesisHash, genesisDT) rest = some st') :
    validate_blockchain (create_genesis_block :: rest) = .ok (true, none) := by
  have h0 : validate_blockchain (create_genesis_block :: rest) =
      validateLoop create_genesis_block rest 1 := rfl
  rw [h0]
  exact validateLoop_of_chainState rest create_genesis_block 1 1 genesisHash genesisDT
    "2023-01-01T00:00:00Z" rfl genesisHash_ne_empty rfl (by decide) st' h

theorem hash_file_success (max_mb : Nat) (log : List Block) (r1 r2 : DT) (fname : String)
    (file_bytes : List Nat) (hwf : WFDT r1)
    (hok : (hash_file max_mb log r1 r2 fname file_bytes).1.isOk = true) :
    ∃ blk : Block, ∃ bh : String,
      (hash_file max_mb log r1 r2 fname file_bytes).2 = log ++ [blk] ∧
      blk.index = some (Int.ofNat log.length) ∧
      blk.previous_hash = some (logTailHash log) ∧
      blk.timestamp = some (dtIsoformat r1 ++ "Z") ∧
      blk.operation = some "HASH" ∧
      blk.block_hash = some bh ∧
      calculate_block_header_hash blk = .ok bh := by
  unfold hash_file at hok ⊢
  by_cases hsz : max_mb * 1048576 < file_bytes.length
  · rw [if_pos hsz] at hok
    simp [Except.isOk, Except.toBool] at hok
  · rw [if_neg hsz] at hok ⊢
    simp only [pyTsParse_isoformat r1 hwf] at hok ⊢
    cases hsk : dtLt (dtAddMin10 r2) r1 with
    | true =>
      simp only [hsk] at hok
      simp [Except.isOk, Except.toBool] at hok
    | false =>
      simp only [hsk] at hok ⊢
      cases hch : calculate_block_header_hash
          { index := some (Int.ofNat log.length),
            previous_hash := some (logTailHash log),
            timestamp := some (dtIsoformat r1 ++ "Z"),
            operation := some "HASH", filename := some fname,
            result := some (calculate_file_hash file_bytes),
            hash := some (calculate_file_hash file_bytes) } with
      | error e =>
        simp only [hch] at hok
        simp [Except.isOk, Except.toBool] at hok
      | ok bh =>
        simp only [hch] at hok ⊢
        exact ⟨_, bh, rfl, rfl, rfl, rfl, rfl, rfl, hch⟩

theorem verify_file_success (max_mb : Nat) (log : List Block) (r1 r2 : DT) (fname : String)
    (file_bytes : List Nat) (st_hash : String) (hwf : WFDT r1)
    (hok : (verify_file_integrity max_mb log r1 r2 fname file_bytes st_hash).1.isOk = true) :
    ∃ blk : Block, ∃ bh : String,
      (verify_file_integrity max_mb log r1 r2 fname file_bytes st_hash).2 = log ++ [blk] ∧
      blk.index = some (Int.ofNat log.length) ∧
      blk.previous_hash = some (logTailHash log) ∧
      blk.timestamp = some (dtIsoformat r1 ++ "Z") ∧
      blk.operation = some "VERIFICATION" ∧
      blk.block_hash = some bh ∧
      calculate_block_header_hash blk = .ok bh := by
  unfold verify_file_integrity at hok ⊢
  by_cases hst : st_hash = ""
  · rw [if_pos hst] at hok
    simp [Except.isOk, Except.toBool] at hok
  · rw [if_neg hst] at hok ⊢
    by_cases hsz : max_mb * 1048576 < file_bytes.length
    · rw [if_pos hsz] at hok
      simp [Except.isOk, Except.toBool] at hok
    · rw [if_neg hsz] at hok ⊢
      simp only [pyTsParse_isoformat r1 hwf] at hok ⊢
      cases hsk : dtLt (dtAddMin10 r2) r1 with
      | true =>
        simp only [hsk] at hok
        simp [Except.isOk, Except.toBool] at hok
      | false =>
        simp only [hsk] at hok ⊢
        cases hch : calculate_block_header_hash
            { index := some (Int.ofNat log.length),
              previous_hash := some (logTailHash log),
              timestamp := some (dtIsoformat r1 ++ "Z"),
              operation := some "VERIFICATION", filename := some fname,
              stored_hash := some st_hash,
              current_hash := some (calculate_file_hash file_bytes),
              result := some (if pyLower (calculate_file_hash file_bytes) = pyLower st_hash
                then "valid" else "invalid") } with
        | error e =>
          simp only [hch] at hok
          simp [Except.isOk, Except.toBool] at hok
        | ok bh =>
          simp only [hch] at hok ⊢
          exact ⟨_, bh, rfl, rfl, rfl, rfl, rfl, rfl, hch⟩

theorem chainState_snoc (rest : List Block) (ph : String) (t : DT) (blk : Block)
    (bh ts : String) (r1 : DT)
    (hcs : chainStateFrom (1, genesisHash, genesisDT) rest = some (rest.length + 1, ph, t))
    (hb1 : blk.block_hash = some bh) (hb2 : blk.timestamp = some ts)
    (hb3 : pyTsParse ts = some r1)
    (hb4 : calculate_block_header_hash blk = .ok bh)
    (hb5 : blk.index = some (Int.ofNat (rest.length + 1)))
    (hb6 : blk.previous_hash = some ph)
    (hb7 : dtLt r1 t = false) (hb8 : bh ≠ "") :
    chainStateFrom (1, genesisHash, genesisDT) (rest ++ [blk]) =
      some ((rest ++ [blk]).length + 1, bh, r1) := by
  rw [chainStateFrom_append, hcs]
  simp only [Option.some_bind]
  rw [chainStateFrom,
    chainStep_intro (rest.length + 1, ph, t) blk bh ts r1 hb1 hb2 hb3 hb4 hb5 hb6 hb7 hb8]
  simp [chainStateFrom]

theorem logTailHash_of_chainState (rest : List Block) (ph : String) (t : DT)
    (hcs : chainStateFrom (1, genesisHash, genesisDT) rest = some (rest.length + 1, ph, t)) :
    logTailHash (create_genesis_block :: rest) = ph := by
  rcases chainStateFrom_last rest _ _ hcs with ⟨hnil, hst⟩ | ⟨lb, hlast, hlb⟩
  · subst hnil
    have hph : ph = genesisHash := by
      have h2 := congrArg (fun x => x.2.1) hst
      simpa using h2
    subst hph
    rfl
  · cases rest with
    | nil => cases hlast
    | cons r rs =>
      show logTailHash (create_genesis_block :: r :: rs) = ph
      unfold logTailHash
      rw [List.getLast?_cons_cons, hlast]
      simp [tailPrevHash, hlb]

theorem reachable_chainState (log : List Block) (t : DT) (h : ReachableC log t) :
    ∃ rest ph, log = create_genesis_block :: rest ∧
      chainStateFrom (1, genesisHash, genesisDT) rest = some (rest.length + 1, ph, t) := by
  induction h with
  | init => exact ⟨[], genesisHash, rfl, rfl⟩
  | stepHash max_mb log t r1 r2 fname file_bytes hre hwf hmono hok ih =>
    obtain ⟨rest, ph, hlog, hcs⟩ := ih
    obtain ⟨blk, bh, hlog', hb1, hb2, hb3, hb4, hb5, hb6⟩ :=
      hash_file_success max_mb log r1 r2 fname file_bytes hwf hok
    subst hlog
    refine ⟨rest ++ [blk], bh, by rw [hlog']; simp, ?_⟩
    refine chainState_snoc rest ph t blk bh (dtIsoformat r1 ++ "Z") r1 hcs hb5 hb3
      (pyTsParse_isoformat r1 hwf) hb6 ?_ ?_ hmono
      (calculate_block_header_hash_ne_empty _ bh hb6)
    · rw [hb1]; simp
    · rw [hb2, logTailHash_of_chainState rest ph t hcs]
  | stepVerify max_mb log t r1 r2 fname file_bytes st_hash hre hwf hmono hok ih =>
    obtain ⟨rest, ph, hlog, hcs⟩ := ih
    obtain ⟨blk, bh, hlog', hb1, hb2, hb3, hb4, hb5, hb6⟩ :=
      verify_file_success max_mb log r1 r2 fname file_bytes st_hash hwf hok
    subst hlog
    refine ⟨rest ++ [blk], bh, by rw [hlog']; simp, ?_⟩
    refine chainState_snoc rest ph t blk bh (dtIsoformat r1 ++ "Z") r1 hcs hb5 hb3
      (pyTsParse_isoformat r1 hwf) hb6 ?_ ?_ hmono
      (calculate_block_header_hash_ne_empty _ bh hb6)
    · rw [hb1]; simp
    · rw [hb2, logTailHash_of_chainState rest ph t hcs]

theorem chainState_head_prev (b : Block) (rest : List Block) (st st' : Nat × String × DT)
    (h : chainStateFrom st (b :: rest) = some st') : b.previous_hash = some st.2.1 := by
  rw [chainStateFrom] at h
  cases hstep : chainStep st b with
  | none => simp only [hstep] at h; exact Option.noConfusion h
  | some st1 =>
    obtain ⟨bh, ts, d, -, -, -, -, -, hprev, -, -, -⟩ := chainStep_some _ _ _ hstep
    exact hprev

theorem chainState_head_ts (b : Block) (rest : List Block) (st st' : Nat × String × DT)
    (h : chainStateFrom st (b :: rest) = some st') :
    ∃ ts d, b.timestamp = some ts ∧ pyTsParse ts = some d ∧ dtLt d st.2.2 = false := by
  rw [chainStateFrom] at h
  cases hstep : chainStep st b with
  | none => simp only [hstep] at h; exact Option.noConfusion h
  | some st1 =>
    obtain ⟨bh, ts, d, -, hts, hpar, -, -, -, hdt, -, -⟩ := chainStep_some _ _ _ hstep
    exact ⟨ts, d, hts, hpar, hdt⟩

theorem chainState_index (l : List Block) :
    ∀ st st', chainStateFrom st l = some st' →
      ∀ k, (hk : k < l.length) → (l.get ⟨k, hk⟩).index = some (Int.ofNat (st.1 + k)) := by
  induction l with
  | nil => intro st st' _ k hk; exact absurd hk (by simp)
  | cons b rest ih =>
    intro st st' h k hk
    rw [chainStateFrom] at h
    cases hstep : chainStep st b with
    | none => simp only [hstep] at h; exact Option.noConfusion h
    | some st1 =>
      simp only [hstep] at h
      obtain ⟨bh, ts, d, -, -, -, -, hidx, -, -, -, hst1⟩ := chainStep_some _ _ _ hstep
      cases k with
      | zero => simpa using hidx
      | succ k =>
        have hk' : k < rest.length := by simpa using hk
        have hrec := ih st1 st' h k hk'
        rw [hst1] at hrec
        simp only [List.get_cons_succ]
        rw [hrec]
        show some (Int.ofNat (st.1 + 1 + k)) = some (Int.ofNat (st.1 + (k + 1)))
        congr 2
        omega

theorem chainState_hashes (l : List Block) :
    ∀ st st', chainStateFrom st l = some st' →
      ∀ k, (hk : k < l.length) → ∃ h, (l.get ⟨k, hk⟩).block_hash = some h ∧
        calculate_block_header_hash (l.get ⟨k, hk⟩) = .ok h := by
  induction l with
  | nil => intro st st' _ k hk; exact absurd hk (by simp)
  | cons b rest ih =>
    intro st st' h k hk
    rw [chainStateFrom] at h
    cases hstep : chainStep st b with
    | none => simp only [hstep] at h; exact Option.noConfusion h
    | some st1 =>
      simp only [hstep] at h
      obtain ⟨bh, ts, d, hbh, -, -, hch, -, -, -, -, -⟩ := chainStep_some _ _ _ hstep
      cases k with
      | zero => exact ⟨bh, hbh, hch⟩
      | succ k =>
        have hk' : k < rest.length := by simpa using hk
        simpa using ih st1 st' h k hk'

theorem chainState_links (l : List Block) :
    ∀ st st', chainStateFrom st l = some st' →
      ∀ k, (hk : k + 1 < l.length) →
        (l.get ⟨k + 1, hk⟩).previous_hash = (l.get ⟨k, by omega⟩).block_hash := by
  induction l with
  | nil => intro st st' _ k hk; exact absurd hk (by simp)
  | cons b rest ih =>
    intro st st' h k hk
    rw [chainStateFrom] at h
    cases hstep : chainStep st b with
    | none => simp only [hstep] at h; exact Option.noConfusion h
    | some st1 =>
      simp only [hstep] at h
      obtain ⟨bh, ts, d, hbh, -, -, -, -, -, -, -, hst1⟩ := chainStep_some _ _ _ hstep
      cases k with
      | zero =>
        cases rest with
        | nil => exact absurd hk (by simp)
        | cons r rs =>
          have hhead := chainState_head_prev r rs st1 st' h
          rw [hst1] at hhead
          simpa [hbh] using hhead
      | succ k =>
        have hk' : k + 1 < rest.length := by simpa using hk
        simpa using ih st1 st' h k hk'

theorem chainState_ts (l : List Block) :
    ∀ st st', chainStateFrom st l = some st' →
      ((∀ k, (hk : k < l.length) → ∃ ts d, (l.get ⟨k, hk⟩).timestamp = some ts ∧
          pyTsParse ts = some d) ∧
        (∀ k, (hk : k + 1 < l.length) → ∃ d d',
          ((l.get ⟨k, by omega⟩).timestamp.bind pyTsParse) = some d ∧
          ((l.get ⟨k + 1, hk⟩).timestamp.bind pyTsParse) = some d' ∧
          dtLt d' d = false)) := by
  induction l with
  | nil =>
    intro st st' _
    constructor
    · intro k hk; exact absurd hk (by simp)
    · intro k hk; exact absurd hk (by simp)
  | cons b rest ih =>
    intro st st' h
    rw [chainStateFrom] at h
    cases hstep : chainStep st b with
    | none => simp only [hstep] at h; exact Option.noConfusion h
    | some st1 =>
      simp only [hstep] at h
      obtain ⟨bh, ts, d, -, hts, hpar, -, -, -, -, -, hst1⟩ := chainStep_some _ _ _ hstep
      obtain ⟨ihall, ihpairs⟩ := ih st1 st' h
      constructor
      · intro k hk
        cases k with
        | zero => exact ⟨ts, d, hts, hpar⟩
        | succ k =>
          have hk' : k < rest.length := by simpa using hk
          simpa using ihall k hk'
      · intro k hk
        cases k with
        | zero =>
          cases rest with
          | nil => exact absurd hk (by simp)
          | cons r rs =>
            obtain ⟨ts', d', hts', hpar', hdt'⟩ := chainState_head_ts r rs st1 st' h
            rw [hst1] at hdt'
            refine ⟨d, d', ?_, ?_, hdt'⟩
            · simp [hts, hpar]
            · simp [hts', hpar']
        | succ k =>
          have hk' : k + 1 < rest.length := by simpa using hk
          simpa using ihpairs k hk'

/-- C1: every chain state reachable from initialization (one genesis
block) by successful `hash_file` / `verify_file_integrity` appends — under
a calendar-valid, non-backwards UTC clock — satisfies the chain
invariants (dense indices from 0, hash links, recomputable stored header
hashes, non-decreasing parsable timestamps), and `validate_blockchain`
returns `(true, none)` on it. -/
theorem C1_reachable_states_satisfy_invariants (log : List Block) (t : DT)
    (h : ReachableC log t) :
    denseIndices log ∧ hashLinks log ∧ hashesOK log ∧ tsMono log ∧
    validate_blockchain log = .ok (true, none) := by
  obtain ⟨rest, ph, hlog, hcs⟩ := reachable_chainState log t h
  subst hlog
  refine ⟨?_, ?_, ?_, ?_, validate_ok_of_chainState rest _ hcs⟩
  · intro k hk
    cases k with
    | zero => rfl
    | succ k =>
      have hk' : k < rest.length := by simpa using hk
      have hrec := chainState_index rest _ _ hcs k hk'
      simp only [List.get_cons_succ]
      rw [hrec]
      show some (Int.ofNat (1 + k)) = some (Int.ofNat (k + 1))
      congr 2
      omega
  · intro k hk
    cases k with
    | zero =>
      cases rest with
      | nil => exact absurd hk (by simp)
      | cons r rs =>
        have hhead := chainState_head_prev r rs _ _ hcs
        exact hhead.trans (by rfl)
    | succ k =>
      have hk' : k + 1 < rest.length := by simpa using hk
      have hrec := chainState_links rest _ _ hcs k hk'
      simpa using hrec
  · intro k hk
    cases k with
    | zero => exact ⟨genesisHash, rfl, rfl⟩
    | succ k =>
      have hk' : k < rest.length := by simpa using hk
      have hrec := chainState_hashes rest _ _ hcs k hk'
      simpa using hrec
  · intro k hk
    cases k with
    | zero =>
      cases rest with
      | nil => exact absurd hk (by simp)
      | cons r rs =>
        obtain ⟨ts, d', hts, hpar, hdt⟩ := chainState_head_ts r rs _ _ hcs
        refine ⟨genesisDT, d', ?_, ?_, hdt⟩
        · show create_genesis_block.timestamp.bind pyTsParse = some genesisDT
          decide
        · simp [List.get_cons_succ, hts, hpar]
    | succ k =>
      have hk' : k + 1 < rest.length := by simpa using hk
      have hrec := (chainState_ts rest _ _ hcs).2 k hk'
      simpa using hrec

set_option maxHeartbeats 4000000 in
/-- Witness for C1 at a concrete reachable state: genesis plus one `HASH`
append at a well-formed later clock reading validates clean. -/
theorem C1_reachable_witness : validate_blockchain demoLog1 = .ok (true, none) :=
  (C1_reachable_states_satisfy_invariants _ demoDT1
    (ReachableC.stepHash 10 [create_genesis_block] genesisDT demoDT1 demoDT1 "a.txt"
      [104, 105] ReachableC.init (by decide) (by decide) (by decide))).2.2.2.2

/-! ## Validator behaviour lemmas -/

theorem validateStep_verdict (prev cur : Block) (i : Nat) (v : Bool × Option Nat)
    (h : validateStep prev cur i = .ok (some v)) : v = (false, some i) := by
  unfold validateStep at h
  cases hcp : cur.previous_hash with
  | none => simp only [hcp] at h; exact Except.noConfusion h
  | some cph =>
    simp only [hcp] at h
    by_cases hres : resolvePrevHashVal prev ≠ some cph
    · rw [if_pos hres] at h
      exact (Option.some_inj.mp (Except.ok.inj h)).symm
    · rw [if_neg hres] at h
      cases hch : checkOwnHash cur with
      | error e => simp only [hch] at h; exact Except.noConfusion h
      | ok bres =>
        simp only [hch] at h
        cases bres with
        | false => exact (Option.some_inj.mp (Except.ok.inj h)).symm
        | true =>
          cases hcts : cur.timestamp with
          | none => simp only [hcts] at h; exact Except.noConfusion h
          | some cts =>
            simp only [hcts] at h
            cases hct : pyTsParse cts with
            | none => simp only [hct] at h; exact Except.noConfusion h
            | some ct =>
              simp only [hct] at h
              cases hpts : prev.timestamp with
              | none => simp only [hpts] at h; exact Except.noConfusion h
              | some pts =>
                simp only [hpts] at h
                cases hpt : pyTsParse pts with
                | none => simp only [hpt] at h; exact Except.noConfusion h
                | some pt =>
                  simp only [hpt] at h
                  cases hdec : dtLt ct pt with
                  | true =>
                    simp only [hdec] at h
                    exact (Option.some_inj.mp (Except.ok.inj h)).symm
                  | false =>
                    simp only [hdec] at h
                    exact Option.noConfusion (Except.ok.inj h)

theorem validateStep_total (prev cur : Block) (i : Nat)
    (hp : requiredOK prev) (hc : requiredOK cur) :
    ∃ r, validateStep prev cur i = .ok r := by
  obtain ⟨hpi, hpp, pts, pt, hpts, hptp⟩ := hp
  obtain ⟨hci, hcp, cts, ct, hcts, hctp⟩ := hc
  obtain ⟨cph, hcph⟩ := Option.isSome_iff_exists.mp hcp
  unfold validateStep
  simp only [hcph]
  by_cases hres : resolvePrevHashVal prev ≠ some cph
  · rw [if_pos hres]; exact ⟨_, rfl⟩
  · rw [if_neg hres]
    have hch : ∃ bres, checkOwnHash cur = .ok bres := by
      unfold checkOwnHash
      cases hbh : cur.block_hash with
      | none => exact ⟨true, rfl⟩
      | some stored =>
        obtain ⟨s, hs⟩ := calculate_block_header_hash_total cur hci hcp
          (by rw [hcts]; rfl)
        rw [hs]
        exact ⟨_, rfl⟩
    obtain ⟨bres, hchv⟩ := hch
    simp only [hchv]
    cases bres with
    | false => exact ⟨_, rfl⟩
    | true =>
      simp only [hcts, hctp, hpts, hptp]
      cases dtLt ct pt
      · exact ⟨_, rfl⟩
      · exact ⟨_, rfl⟩

theorem validateLoop_total (rest : List Block) :
    ∀ (prev : Block) (i : Nat), requiredOK prev → (∀ b ∈ rest, requiredOK b) →
      ∃ v, validateLoop prev rest i = .ok v := by
  induction rest with
  | nil => intro prev i _ _; exact ⟨_, rfl⟩
  | cons cur rest' ih =>
    intro prev i hprev hall
    obtain ⟨r, hstep⟩ := validateStep_total prev cur i hprev (hall cur (by simp))
    rw [validateLoop]
    cases r with
    | some verdict => simp only [hstep]; exact ⟨_, rfl⟩
    | none =>
      simp only [hstep]
      exact ih cur (i + 1) (hall cur (by simp)) (fun b hb => hall b (by simp [hb]))

theorem validate_total_of_requiredOK (log : List Block)
    (h : ∀ b ∈ log, requiredOK b) : ∃ v, validate_blockchain log = .ok v := by
  cases log with
  | nil => exact ⟨_, rfl⟩
  | cons b0 rest =>
    have hb0 := h b0 (by simp)
    obtain ⟨hi, hp, ts, d, hts, hpd⟩ := hb0
    obtain ⟨i0, hi0⟩ := Option.isSome_iff_exists.mp hi
    obtain ⟨p0, hp0⟩ := Option.isSome_iff_exists.mp hp
    unfold validate_blockchain
    simp only [hi0, hp0]
    by_cases h0 : i0 ≠ 0
    · rw [if_pos h0]; exact ⟨_, rfl⟩
    · rw [if_neg h0]
      by_cases hz : p0 ≠ zeros64
      · rw [if_pos hz]; exact ⟨_, rfl⟩
      · rw [if_neg hz]
        exact validateLoop_total rest b0 1 (h b0 (by simp)) (fun b hb => h b (by simp [hb]))

theorem validateStep_link_mismatch (prev cur : Block) (i : Nat) (v : String)
    (hcp : cur.previous_hash = some v)
    (hne : resolvePrevHashVal prev ≠ some v) :
    validateStep prev cur i = .ok (some (false, some i)) := by
  unfold validateStep
  simp only [hcp]
  rw [if_pos hne]

theorem validateStep_bad_hash (prev cur : Block) (i : Nat) (s h' : String)
    (hs : cur.block_hash = some s) (hch : calculate_block_header_hash cur = .ok h')
    (hne : s ≠ h') (hcp : cur.previous_hash.isSome) :
    validateStep prev cur i = .ok (some (false, some i)) := by
  obtain ⟨cph, hcph⟩ := Option.isSome_iff_exists.mp hcp
  unfold validateStep
  simp only [hcph]
  by_cases hres : resolvePrevHashVal prev ≠ some cph
  · rw [if_pos hres]
  · rw [if_neg hres]
    have hco : checkOwnHash cur = .ok false := by
      unfold checkOwnHash
      simp only [hs, hch]
      simp [hne]
    simp only [hco]

theorem validateStep_ts_fail (prev cur : Block) (i : Nat) (cph cts pts : String) (ct pt : DT)
    (hlink : cur.previous_hash = some cph) (hres : resolvePrevHashVal prev = some cph)
    (hhash : checkOwnHash cur = .ok true)
    (hcts : cur.timestamp = some cts) (hct : pyTsParse cts = some ct)
    (hpts : prev.timestamp = some pts) (hpt : pyTsParse pts = some pt)
    (hdec : dtLt ct pt = true) :
    validateStep prev cur i = .ok (some (false, some i)) := by
  unfold validateStep
  simp only [hlink, hres, hhash, hcts, hct, hpts, hpt, hdec]
  simp

theorem validate_cons_ok (b0 : Block) (rest : List Block)
    (h : validate_blockchain (b0 :: rest) = .ok (true, none)) :
    b0.index = some 0 ∧ b0.previous_hash = some zeros64 ∧
      validateLoop b0 rest 1 = .ok (true, none) := by
  unfold validate_blockchain at h
  cases hi0 : b0.index with
  | none => simp only [hi0] at h; exact Except.noConfusion h
  | some i0 =>
    simp only [hi0] at h
    by_cases h0 : i0 ≠ 0
    · rw [if_pos h0] at h
      exact absurd (Prod.mk.injEq .. ▸ Except.ok.inj h) (by simp)
    · rw [if_neg h0] at h
      push_neg at h0
      subst h0
      cases hp0 : b0.previous_hash with
      | none => simp only [hp0] at h; exact Except.noConfusion h
      | some p0 =>
        simp only [hp0] at h
        by_cases hz : p0 ≠ zeros64
        · rw [if_pos hz] at h
          exact absurd (Prod.mk.injEq .. ▸ Except.ok.inj h) (by simp)
        · rw [if_neg hz] at h
          push_neg at hz
          subst hz
          exact ⟨rfl, rfl, h⟩

theorem validate_cons_eq_loop (b0 : Block) (rest : List Block)
    (hi0 : b0.index = some 0) (hp0 : b0.previous_hash = some zeros64) :
    validate_blockchain (b0 :: rest) = validateLoop b0 rest 1 := by
  unfold validate_blockchain
  simp [hi0, hp0]

theorem validateLoop_append (l1 : List Block) :
    ∀ (prev : Block) (i : Nat) (l2 : List Block),
      validateLoop prev l1 i = .ok (true, none) →
      validateLoop prev (l1 ++ l2) i = validateLoop (l1.getLastD prev) l2 (i + l1.length) := by
  induction l1 with
  | nil => intro prev i l2 _; simp [List.getLastD]
  | cons cur rest ih =>
    intro prev i l2 h
    rw [validateLoop] at h
    cases hstep : validateStep prev cur i with
    | error e => simp only [hstep] at h; exact Except.noConfusion h
    | ok o =>
      cases o with
      | some verdict =>
        simp only [hstep] at h
        have hv := validateStep_verdict prev cur i verdict hstep
        subst hv
        exact absurd (Prod.mk.injEq .. ▸ Except.ok.inj h) (by simp)
      | none =>
        simp only [hstep] at h
        rw [List.cons_append, validateLoop]
        simp only [hstep]
        rw [ih cur (i + 1) l2 h, List.getLastD_cons]
        congr 1
        simp
        omega

theorem validateLoop_detects (rest : List Block) :
    ∀ (prev : Block) (i k : Nat), requiredOK prev → (∀ b ∈ rest, requiredOK b) →
      ∀ (hk : k < rest.length),
      (∃ s h', (rest.get ⟨k, hk⟩).block_hash = some s ∧
        calculate_block_header_hash (rest.get ⟨k, hk⟩) = .ok h' ∧ s ≠ h') →
      ∃ j, j ≤ i + k ∧ validateLoop prev rest i = .ok (false, some j) := by
  induction rest with
  | nil => intro prev i k _ _ hk; exact absurd hk (by simp)
  | cons cur rest' ih =>
    intro prev i k hprev hall hk hbad
    cases k with
    | zero =>
      obtain ⟨s, h', hs, hch', hne⟩ := hbad
      have hcp : cur.previous_hash.isSome := (hall cur (by simp)).2.1
      rw [validateLoop]
      simp only [validateStep_bad_hash prev cur i s h' hs hch' hne hcp]
      exact ⟨i, by omega, rfl⟩
    | succ k =>
      obtain ⟨r, hstep⟩ := validateStep_total prev cur i hprev (hall cur (by simp))
      rw [validateLoop]
      cases r with
      | some verdict =>
        have hv := validateStep_verdict prev cur i verdict hstep
        subst hv
        simp only [hstep]
        exact ⟨i, by omega, rfl⟩
      | none =>
        simp only [hstep]
        have hk' : k < rest'.length := by simpa using hk
        obtain ⟨j, hj, hloop⟩ := ih cur (i + 1) k (hall cur (by simp))
          (fun b hb => hall b (by simp [hb])) hk' (by simpa using hbad)
        exact ⟨j, by omega, hloop⟩

set_option maxHeartbeats 1600000 in
/-- C2 counterexample: the chain validator is not total — on a chain whose
second block stores an unparsable timestamp (with the hash link intact and
no stored header hash), `validate_blockchain` raises `ValueError` from
`datetime.fromisoformat` instead of returning a verdict. -/
theorem C2_counterexample_validator_raises :
    validate_blockchain badTsChain = .error .valueError := by decide

/-- C2 (amended): the validator is total on every chain whose blocks all
carry `index`, `previous_hash` and a parsable `timestamp` — on those it
always returns a definite verdict; with a malformed or unparsable
timestamp or a missing required field it can raise instead. -/
theorem C2_validator_total_on_wellformed (log : List Block)
    (h : ∀ b ∈ log, requiredOK b) : ∃ v, validate_blockchain log = .ok v :=
  validate_total_of_requiredOK log h

/-- Witness for C2 (amended) at a concrete input. -/
theorem C2_validator_total_witness : ∃ v, validate_blockchain [create_genesis_block] = .ok v :=
  C2_validator_total_on_wellformed [create_genesis_block]
    (by
      intro b hb
      simp only [List.mem_singleton] at hb
      subst hb
      exact ⟨rfl, rfl, "2023-01-01T00:00:00Z", genesisDT, rfl, by decide⟩)

set_option maxHeartbeats 1600000 in
/-- C3 counterexample: a single-block chain whose genesis block stores a
`block_hash` different from the recomputation over its own fields still
validates as `(true, none)` — the validator never recomputes block 0's own
hash, so this tampering is not detected. -/
theorem C3_counterexample_genesis_hash_unchecked :
    validate_blockchain [tamperedGenesis] = .ok (true, none) ∧
    tamperedGenesis.block_hash = some "deadbeef" ∧
    (calculate_block_header_hash tamperedGenesis).toOption ≠ some "deadbeef" := by
  refine ⟨rfl, rfl, ?_⟩
  decide

/-- C3 (amended): a stored `block_hash` at any index `k + 1 ≥ 1` that
differs from the Block Hasher recomputation over that block's own fields
makes the validator — run on a chain whose blocks carry the fields it
reads unconditionally — report the chain invalid at some index
`j ≤ k + 1`.  Block 0's own stored hash is never recomputed, so the
guarantee starts at index 1 (see the counterexample). -/
theorem C3_stored_hash_mismatch_detected (log : List Block) (k : Nat)
    (hlen : k + 1 < log.length) (hreq : ∀ b ∈ log, requiredOK b)
    (s h' : String) (hbh : (log.get ⟨k + 1, hlen⟩).block_hash = some s)
    (hch : calculate_block_header_hash (log.get ⟨k + 1, hlen⟩) = .ok h') (hne : s ≠ h') :
    ∃ j, j ≤ k + 1 ∧ validate_blockchain log = .ok (false, some j) := by
  cases log with
  | nil => exact absurd hlen (by simp)
  | cons b0 rest =>
    obtain ⟨hi, hp, ts, d, hts, hpd⟩ := hreq b0 (by simp)
    obtain ⟨i0, hi0⟩ := Option.isSome_iff_exists.mp hi
    obtain ⟨p0, hp0⟩ := Option.isSome_iff_exists.mp hp
    unfold validate_blockchain
    simp only [hi0, hp0]
    by_cases h0 : i0 ≠ 0
    · rw [if_pos h0]
      exact ⟨0, by omega, rfl⟩
    · rw [if_neg h0]
      by_cases hz : p0 ≠ zeros64
      · rw [if_pos hz]
        exact ⟨0, by omega, rfl⟩
      · rw [if_neg hz]
        have hk' : k < rest.length := by simpa using hlen
        obtain ⟨j, hj, hloop⟩ := validateLoop_detects rest b0 1 k (hreq b0 (by simp))
          (fun b hb => hreq b (by simp [hb])) hk'
          ⟨s, h', by simpa using hbh, by simpa using hch, hne⟩
        exact ⟨j, by omega, hloop⟩

set_option maxHeartbeats 1600000 in
/-- Witness for C3 (amended) at a concrete input: a two-block chain with a
corrupt stored hash at index 1 is reported invalid at an index `j ≤ 1`. -/
theorem C3_stored_hash_mismatch_witness :
    ∃ j, j ≤ 0 + 1 ∧ validate_blockchain c3Chain = .ok (false, some j) :=
  C3_stored_hash_mismatch_detected c3Chain 0 (by decide)
    (by
      intro b hb
      simp only [c3Chain, List.mem_cons, List.not_mem_nil, or_false] at hb
      rcases hb with hb | hb <;> subst hb
      · exact ⟨rfl, rfl, "2023-01-01T00:00:00Z", genesisDT, rfl, by decide⟩
      · exact ⟨rfl, rfl, "2023-01-02T00:00:00Z", ⟨2023, 1, 2, 0, 0, 0, 0⟩, rfl, by decide⟩)
    "beef" (sha256hexOfString (headerString 1 genesisHash "2023-01-02T00:00:00Z" "" "" ""))
    rfl rfl (by decide)

theorem validateLoop_prefix (l1 : List Block) :
    ∀ (prev : Block) (i : Nat) (l2 : List Block),
      validateLoop prev (l1 ++ l2) i = .ok (true, none) →
      validateLoop prev l1 i = .ok (true, none) := by
  induction l1 with
  | nil => intro prev i l2 _; rfl
  | cons cur rest ih =>
    intro prev i l2 h
    rw [List.cons_append, validateLoop] at h
    rw [validateLoop]
    cases hstep : validateStep prev cur i with
    | error e => simp only [hstep] at h; exact Except.noConfusion h
    | ok o =>
      cases o with
      | some verdict =>
        simp only [hstep] at h
        have hv := validateStep_verdict _ _ _ _ hstep
        subst hv
        exact absurd (Prod.mk.injEq .. ▸ Except.ok.inj h) (by simp)
      | none =>
        simp only [hstep] at h
        simp only [hstep]
        exact ih cur (i + 1) l2 h

/-- C4: in any valid chain, replacing the `previous_hash` of the block at
index `i = len(l1) + 1 ≥ 1` by any value different from the predecessor's
resolved header hash makes `validate_blockchain` return `(false, i)` —
the first broken link is the reported first invalid index, whatever
follows it.  (With `l1 = [b1]` this is the spec's index-2 tampering
scenario.) -/
theorem C4_prev_hash_tamper_detected (b0 : Block) (l1 : List Block) (cur : Block)
    (l2 : List Block) (v : String)
    (hvalid : validate_blockchain ((b0 :: l1) ++ cur :: l2) = .ok (true, none))
    (hne : resolvePrevHashVal (l1.getLastD b0) ≠ some v) :
    validate_blockchain ((b0 :: l1) ++ { cur with previous_hash := some v } :: l2) =
      .ok (false, some (l1.length + 1)) := by
  rw [List.cons_append] at hvalid
  obtain ⟨hi0, hp0, hloop⟩ := validate_cons_ok b0 _ hvalid
  have hpre : validateLoop b0 l1 1 = .ok (true, none) := validateLoop_prefix l1 b0 1 _ hloop
  rw [List.cons_append, validate_cons_eq_loop b0 _ hi0 hp0,
    validateLoop_append l1 b0 1 _ hpre, validateLoop]
  simp only [validateStep_link_mismatch (l1.getLastD b0) { cur with previous_hash := some v }
    (1 + l1.length) v rfl hne]
  simp [Nat.add_comm]

/-- C5: in any chain whose prefix up to index `i - 1` validates clean, a
block at index `i = len(l1) + 1` whose hash link and stored header hash
both check out but whose timestamp parses strictly earlier than its
predecessor's makes `validate_blockchain` return `(false, i)`. -/
theorem C5_timestamp_decrease_detected (b0 : Block) (l1 : List Block) (cur : Block)
    (l2 : List Block) (cph cts pts : String) (ct pt : DT)
    (hpref : validate_blockchain (b0 :: l1) = .ok (true, none))
    (hlink : cur.previous_hash = some cph)
    (hres : resolvePrevHashVal (l1.getLastD b0) = some cph)
    (hhash : checkOwnHash cur = .ok true)
    (hcts : cur.timestamp = some cts) (hct : pyTsParse cts = some ct)
    (hpts : (l1.getLastD b0).timestamp = some pts) (hpt : pyTsParse pts = some pt)
    (hdec : dtLt ct pt = true) :
    validate_blockchain (b0 :: l1 ++ cur :: l2) = .ok (false, some (l1.length + 1)) := by
  obtain ⟨hi0, hp0, hloop⟩ := validate_cons_ok b0 l1 hpref
  rw [List.cons_append, validate_cons_eq_loop b0 _ hi0 hp0,
    validateLoop_append l1 b0 1 _ hloop, validateLoop]
  simp only [validateStep_ts_fail (l1.getLastD b0) cur (1 + l1.length) cph cts pts ct pt
    hlink hres hhash hcts hct hpts hpt hdec]
  simp [Nat.add_comm]

set_option maxHeartbeats 40000000 in
/-- Witness for C4 at a concrete input: tampering the `previous_hash` of
block 2 of a valid three-block chain yields `(false, 2)`. -/
theorem C4_prev_hash_tamper_witness :
    validate_blockchain ((create_genesis_block :: [demoB1]) ++
      { demoB2 with previous_hash := some "ff" } :: []) = .ok (false, some 2) := by
  have h := C4_prev_hash_tamper_detected create_genesis_block [demoB1] demoB2 [] "ff"
    (by decide) (by decide)
  simpa using h

set_option maxHeartbeats 40000000 in
/-- Witness for C5 at a concrete input: a hash-consistent block 2 dated
before block 1 yields `(false, 2)`. -/
theorem C5_timestamp_decrease_witness :
    validate_blockchain (create_genesis_block :: [demoB1] ++ c5cur :: []) =
      .ok (false, some 2) := by
  have h := C5_timestamp_decrease_detected create_genesis_block [demoB1] c5cur []
    (demoB1.block_hash.getD "") "2023-06-01T00:00:00Z" "2024-05-06T07:08:09.123456Z"
    ⟨2023, 6, 1, 0, 0, 0, 0⟩ ⟨2024, 5, 6, 7, 8, 9, 123456⟩
    (by decide) (by decide) (by decide) (by decide) (by decide) (by decide) (by decide)
    (by decide) (by decide)
  simpa using h

/-- C8: block construction is atomic with respect to the audit log.  On
any error outcome of `hash_file` or `verify_file_integrity` — including
the `InvalidTimestamp` rejection, which fires exactly when the generated
timestamp exceeds `current_time` plus the 10-minute tolerance (unless the
size check rejected first) — the log is returned unchanged; the log is
mutated only by appending one fully-built block that carries its
`block_hash`. -/
theorem C8_append_atomicity :
    (∀ (max_mb : Nat) (log : List Block) (r1 r2 : DT) (fname : String)
        (file_bytes : List Nat),
      (hash_file max_mb log r1 r2 fname file_bytes).1.isOk = false →
      (hash_file max_mb log r1 r2 fname file_bytes).2 = log) ∧
    (∀ (max_mb : Nat) (log : List Block) (r1 r2 : DT) (fname st_hash : String)
        (file_bytes : List Nat),
      (verify_file_integrity max_mb log r1 r2 fname file_bytes st_hash).1.isOk = false →
      (verify_file_integrity max_mb log r1 r2 fname file_bytes st_hash).2 = log) ∧
    (∀ (max_mb : Nat) (log : List Block) (r1 r2 : DT) (fname : String)
        (file_bytes : List Nat), WFDT r1 → dtLt (dtAddMin10 r2) r1 = true →
      (hash_file max_mb log r1 r2 fname file_bytes).1 = .error .invalidTimestamp ∨
      (hash_file max_mb log r1 r2 fname file_bytes).1 = .error .payloadTooLarge) ∧
    (∀ (max_mb : Nat) (log : List Block) (r1 r2 : DT) (fname : String)
        (file_bytes : List Nat), WFDT r1 →
      (hash_file max_mb log r1 r2 fname file_bytes).1.isOk = true →
      ∃ blk, (hash_file max_mb log r1 r2 fname file_bytes).2 = log ++ [blk] ∧
        blk.block_hash.isSome) := by
  refine ⟨?_, ?_, ?_, ?_⟩
  · intro mm log r1 r2 fn fb hfail
    unfold hash_file at hfail ⊢
    by_cases hsz : mm * 1048576 < fb.length
    · rw [if_pos hsz]
    · rw [if_neg hsz] at hfail ⊢
      cases hts : pyTsParse (dtIsoformat r1 ++ "Z") with
      | none => simp only [hts]
      | some tt =>
        simp only [hts] at hfail ⊢
        cases hsk : dtLt (dtAddMin10 r2) tt with
        | true => simp only [hsk]; rfl
        | false =>
          simp only [hsk] at hfail ⊢
          cases hch : calculate_block_header_hash
              { index := some (Int.ofNat log.length),
                previous_hash := some (logTailHash log),
                timestamp := some (dtIsoformat r1 ++ "Z"),
                operation := some "HASH", filename := some fn,
                result := some (calculate_file_hash fb),
                hash := some (calculate_file_hash fb) } with
          | error e => simp [hsk, hch]
          | ok bh =>
            simp only [hch] at hfail
            simp [Except.isOk, Except.toBool] at hfail
  · intro mm log r1 r2 fn sth fb hfail
    unfold verify_file_integrity at hfail ⊢
    by_cases hst : sth = ""
    · rw [if_pos hst]
    · rw [if_neg hst] at hfail ⊢
      by_cases hsz : mm * 1048576 < fb.length
      · rw [if_pos hsz]
      · rw [if_neg hsz] at hfail ⊢
        cases hts : pyTsParse (dtIsoformat r1 ++ "Z") with
        | none => simp only [hts]
        | some tt =>
          simp only [hts] at hfail ⊢
          cases hsk : dtLt (dtAddMin10 r2) tt with
          | true => simp only [hsk]; rfl
          | false =>
            simp only [hsk] at hfail ⊢
            cases hch : calculate_block_header_hash
                { index := some (Int.ofNat log.length),
                  previous_hash := some (logTailHash log),
                  timestamp := some (dtIsoformat r1 ++ "Z"),
                  operation := some "VERIFICATION", filename := some fn,
                  stored_hash := some sth,
                  current_hash := some (calculate_file_hash fb),
                  result := some (if pyLower (calculate_file_hash fb) = pyLower sth
                    then "valid" else "invalid") } with
            | error e => simp [hsk, hch]
            | ok bh =>
              simp only [hch] at hfail
              simp [Except.isOk, Except.toBool] at hfail
  · intro mm log r1 r2 fn fb hwf hskew
    unfold hash_file
    by_cases hsz : mm * 1048576 < fb.length
    · rw [if_pos hsz]
      exact Or.inr rfl
    · rw [if_neg hsz]
      simp only [pyTsParse_isoformat r1 hwf, hskew]
      exact Or.inl rfl
  · intro mm log r1 r2 fn fb hwf hok
    obtain ⟨blk, bh, hlog', -, -, -, -, hbh, -⟩ :=
      hash_file_success mm log r1 r2 fn fb hwf hok
    exact ⟨blk, hlog', by rw [hbh]; rfl⟩

/-- Witness for C8 at a concrete input: a clock reading far in the future
of the skew check's reading trips the `InvalidTimestamp` rejection with
the log unchanged. -/
theorem C8_append_atomicity_witness :
    (hash_file 10 [create_genesis_block] ⟨2100, 1, 1, 0, 0, 0, 0⟩ ⟨2023, 1, 1, 0, 0, 0, 0⟩
      "f" []).2 = [create_genesis_block] ∧
    (hash_file 10 [create_genesis_block] ⟨2100, 1, 1, 0, 0, 0, 0⟩ ⟨2023, 1, 1, 0, 0, 0, 0⟩
      "f" []).1 = .error .invalidTimestamp :=
  ⟨C8_append_atomicity.1 10 [create_genesis_block] ⟨2100, 1, 1, 0, 0, 0, 0⟩
      ⟨2023, 1, 1, 0, 0, 0, 0⟩ "f" [] (by decide),
    (C8_append_atomicity.2.2.1 10 [create_genesis_block] ⟨2100, 1, 1, 0, 0, 0, 0⟩
      ⟨2023, 1, 1, 0, 0, 0, 0⟩ "f" [] (by decide) (by decide)).resolve_right (by decide)⟩

/-! ## `get_blockchain_log` ordering -/

theorem insertDesc_top (b : Block) (acc : List Block)
    (h : ∀ a ∈ acc, a.index.getD 0 < b.index.getD 0) :
    insertDescByIndex b acc = b :: acc := by
  cases acc with
  | nil => rfl
  | cons x xs =>
    unfold insertDescByIndex
    rw [if_neg (by have := h x (by simp); omega)]

theorem sortDesc_of_increasing (l : List Block) :
    ∀ acc, (∀ b ∈ l, ∀ a ∈ acc, a.index.getD 0 < b.index.getD 0) →
      List.Pairwise (fun a b => a.index.getD 0 < b.index.getD 0) l →
      l.foldl (fun acc b => insertDescByIndex b acc) acc = l.reverse ++ acc := by
  induction l with
  | nil => intro acc _ _; simp
  | cons b rest ih =>
    intro acc hacc hpw
    rw [List.foldl_cons, insertDesc_top b acc (hacc b (by simp))]
    obtain ⟨hb, hrest⟩ := List.pairwise_cons.mp hpw
    rw [ih (b :: acc) (by
      intro c hc a ha
      rcases List.mem_cons.mp ha with rfl | ha2
      · exact hb c hc
      · exact hacc c (by simp [hc]) a ha2) hrest]
    simp

theorem denseIndices_pairwise (log : List Block) (h : denseIndices log) :
    List.Pairwise (fun a b => a.index.getD 0 < b.index.getD 0) log := by
  rw [List.pairwise_iff_get]
  intro i j hij
  rw [h i.1 i.2, h j.1 j.2]
  have hij' : i.1 < j.1 := hij
  simp
  omega

set_option maxHeartbeats 16000000 in
/-- C9 counterexample: the log read-out is not in stored chain order — on
a two-block chain (genesis then one append) the returned blocks carry
indices `[1, 0]`, newest first, not `[0, 1]` with the genesis block
first. -/
theorem C9_counterexample_log_not_ascending :
    (get_blockchain_log demoLog1).map (fun r => r.blocks.map (fun b => b.index)) =
      .ok [some 1, some 0] ∧ ((some 1 : Option Int) :: [some 0]) ≠ [some 0, some 1] :=
  ⟨by decide, by decide⟩

/-- C9 (amended): on a chain with dense indices from 0 (and the fields
validation reads present), `get_blockchain_log` returns the blocks sorted
by index descending — the reverse of the stored chain order, genesis
last — as a value copy, with `block_count` the chain length. -/
theorem C9_log_returns_blocks_newest_first (log : List Block)
    (hidx : denseIndices log) (hreq : ∀ b ∈ log, requiredOK b) :
    ∃ r, get_blockchain_log log = .ok r ∧ r.blocks = log.reverse ∧
      r.block_count = log.length := by
  have hall : log.all (fun b => b.index.isSome) = true := by
    rw [List.all_eq_true]
    intro b hb
    obtain ⟨n, hn⟩ := List.mem_iff_get.mp hb
    rw [← hn, hidx n.1 n.2]
    rfl
  obtain ⟨v, hv⟩ := validate_total_of_requiredOK log hreq
  unfold get_blockchain_log
  rw [if_pos hall]
  simp only [hv]
  have hsort : sortDescByIndex log = log.reverse := by
    unfold sortDescByIndex
    rw [sortDesc_of_increasing log [] (by simp) (denseIndices_pairwise log hidx)]
    simp
  exact ⟨_, rfl, by simp [hsort], by simp [hsort]⟩

/-- Witness for C9 (amended) at a concrete input. -/
theorem C9_log_newest_first_witness :
    ∃ r, get_blockchain_log [create_genesis_block] = .ok r ∧
      r.blocks = [create_genesis_block].reverse ∧
      r.block_count = [create_genesis_block].length :=
  C9_log_returns_blocks_newest_first [create_genesis_block]
    (by
      intro k hk
      have hk1 : k < 1 := by simpa using hk
      have hk0 : k = 0 := Nat.lt_one_iff.mp hk1
      subst hk0
      rfl)
    (by
      intro b hb
      simp only [List.mem_singleton] at hb
      subst hb
      exact ⟨rfl, rfl, "2023-01-01T00:00:00Z", genesisDT, rfl, by decide⟩)
